import Mathlib

/-!
Verification of the abs2paper research-paper pipeline.

This file gives a shallow embedding, in Lean 4, of the pure cores of the
Python modules under `abs2paper/`:

* `abs2paper/utils/topic_manager.py` — topic merge application
  (`update_topics_from_merge`), renumbering (`_finalize_merge_to_topic_json`),
  merge-suggestion parsing (`parse_merge_suggestions`) and effective-id lookup
  (`get_effective_topic_id`);
* `abs2paper/rag/paper_generator.py` — whole-paper polish and its parser
  (`_polish_entire_paper`, `_parse_polished_content`);
* `abs2paper/rag/sourceText_retriever.py` — source-text selection
  (`select_most_relevant_source_texts`);
* `abs2paper/rag/cross_paper_analyzer.py` — cross-paper pattern analysis
  (`_identify_patterns`, `analyze_cross_paper_patterns`);
* `abs2paper/rag/paper_ingestor.py` — sentence-aware chunking (`split_text`);
* `abs2paper/utils/db_client.py` — `insert_data`.

Python `dict`s are modelled as association lists in insertion order
(`setA` updates in place, appends fresh keys at the end, exactly as a
CPython `dict` does).  File system, network, LLM and vector-DB calls are
abstracted as explicit inputs.
-/

namespace Abs2Paper

/-! ## Association lists modelling Python dicts -/

/-- First-match lookup in an association list (Python `d[k]` / `k in d`). -/
def lookupA {κ α : Type} [DecidableEq κ] : List (κ × α) → κ → Option α
  | [], _ => none
  | (k, v) :: rest, key => if k = key then some v else lookupA rest key

/-- Python `d[k] = v`: update in place if the key is present (keeping its
position, as CPython dicts preserve insertion order), else append. -/
def setA {κ α : Type} [DecidableEq κ] : List (κ × α) → κ → α → List (κ × α)
  | [], key, v => [(key, v)]
  | (k, w) :: rest, key, v =>
    if k = key then (k, v) :: rest else (k, w) :: setA rest key v

/-- Apply a function to the value at a key, if present (models an in-place
mutation of the dict entry object). -/
def updateA {κ α : Type} [DecidableEq κ] : List (κ × α) → κ → (α → α) → List (κ × α)
  | [], _, _ => []
  | (k, w) :: rest, key, f =>
    if k = key then (k, f w) :: rest else (k, w) :: updateA rest key f

/-- Keys of an association list, in order. -/
def keysA {κ α : Type} (l : List (κ × α)) : List κ := l.map Prod.fst

theorem lookupA_isSome_mem {κ α : Type} [DecidableEq κ] (l : List (κ × α)) (k : κ) :
    (lookupA l k).isSome ↔ k ∈ keysA l := by
  induction l with
  | nil => simp [lookupA, keysA]
  | cons p rest ih =>
    obtain ⟨k0, v0⟩ := p
    simp only [lookupA, keysA, List.map_cons, List.mem_cons]
    by_cases h : k0 = k
    · subst h; simp
    · have h2 : ¬(k = k0) := fun e => h e.symm
      simpa [h, h2, keysA] using ih

theorem lookupA_updateA_self {κ α : Type} [DecidableEq κ] (l : List (κ × α)) (k : κ)
    (f : α → α) :
    lookupA (updateA l k f) k = (lookupA l k).map f := by
  induction l with
  | nil => simp [lookupA, updateA]
  | cons p rest ih =>
    obtain ⟨k0, v0⟩ := p
    by_cases h : k0 = k <;> simp [lookupA, updateA, h, ih]

theorem lookupA_updateA_ne {κ α : Type} [DecidableEq κ] (l : List (κ × α)) (k k' : κ)
    (f : α → α) (h : k ≠ k') :
    lookupA (updateA l k f) k' = lookupA l k' := by
  induction l with
  | nil => simp [lookupA, updateA]
  | cons p rest ih =>
    obtain ⟨k0, v0⟩ := p
    by_cases h0 : k0 = k
    · subst h0; simp [lookupA, updateA, h, ih]
    · simp only [updateA, if_neg h0, lookupA]
      by_cases h1 : k0 = k' <;> simp [h1, ih]

theorem keysA_updateA {κ α : Type} [DecidableEq κ] (l : List (κ × α)) (k : κ)
    (f : α → α) :
    keysA (updateA l k f) = keysA l := by
  induction l with
  | nil => rfl
  | cons p rest ih =>
    obtain ⟨k0, v0⟩ := p
    by_cases h : k0 = k <;> simp [updateA, keysA, h] at * <;> simp [ih]

/-- Keep the first occurrence of every element (used to model places where
only the element set of a Python collection is specified). -/
def dedupFirst : List String → List String
  | [] => []
  | x :: xs => x :: (dedupFirst xs).filter (fun y => y ≠ x)

theorem mem_dedupFirst (xs : List String) (a : String) :
    a ∈ dedupFirst xs ↔ a ∈ xs := by
  induction xs with
  | nil => simp [dedupFirst]
  | cons x rest ih =>
    simp only [dedupFirst, List.mem_cons, List.mem_filter, decide_eq_true_eq, ih]
    by_cases h : a = x <;> simp [h]

theorem nodup_dedupFirst (xs : List String) : (dedupFirst xs).Nodup := by
  induction xs with
  | nil => simp [dedupFirst]
  | cons x rest ih =>
    simp only [dedupFirst, List.nodup_cons]
    refine ⟨fun hmem => ?_, ih.filter _⟩
    simp at hmem

/-! ## `db_client.insert_data` (C10)

`MilvusClient.insert_data` resolves the collection via `get_collection`
(returning `None` when the collection exists neither in the client cache nor
on the server), returns `False` when resolution fails, and otherwise inserts
the rows only when the row list is non-empty, returning `True`.  The database
is modelled as a map from collection name to its list of rows; the pymilvus
cache/server distinction and the `except` branch (RPC failure) are abstracted
away: a collection either resolves or it does not. -/

/-- State of the vector store: collection name to stored rows. -/
structure DBState (α : Type) where
  collections : List (String × List α)
deriving Repr, DecidableEq

/-- Model of `MilvusClient.insert_data` from `abs2paper/utils/db_client.py`:
returns the success flag and the new store state. -/
def insert_data {α : Type} (st : DBState α) (name : String) (data : List α) :
    Bool × DBState α :=
  match lookupA st.collections name with
  | none => (false, st)
  | some rows =>
    if data.isEmpty then (true, st)
    else (true, ⟨setA st.collections name (rows ++ data)⟩)

/-- C10: inserting an empty row list into an existing collection returns
`True` and leaves the store untouched. -/
theorem insert_data_empty_noop {α : Type} (st : DBState α) (name : String)
    (rows : List α) (h : lookupA st.collections name = some rows) :
    insert_data st name [] = (true, st) := by
  simp [insert_data, h]

/-- Witness for C10 at a concrete store. -/
theorem insert_data_empty_noop_witness :
    insert_data (α := Nat) ⟨[("paper_methodology", [7, 8])]⟩ "paper_methodology" []
      = (true, ⟨[("paper_methodology", [7, 8])]⟩) :=
  insert_data_empty_noop ⟨[("paper_methodology", [7, 8])]⟩ "paper_methodology" [7, 8] (by decide)

/-! ## `topic_manager.get_effective_topic_id` (C9)

The Python loop follows `self.topic_mapping` from a start id, keeping a
`visited` set, breaking when an id repeats, and returns the final id.  The
embedding `effGo` additionally returns, as ghost instrumentation, the number
of redirect hops taken and whether the loop was aborted by the revisit check;
`get_effective_topic_id` is its first projection. -/

/-- One execution of the `while current_id in self.topic_mapping` loop from
`get_effective_topic_id`, with explicit fuel.  Returns
`(returned id, number of hops, aborted-on-revisit flag)`.  The fuel is an
artifact of the embedding; `get_effective_topic_id_spec` shows the fuel
`m.length + 1` used below is never exhausted. -/
def effGo (m : List (String × String)) : Nat → String → List String → String × Nat × Bool
  | 0, cur, _ => (cur, 0, false)
  | fuel + 1, cur, visited =>
    match lookupA m cur with
    | none => (cur, 0, false)
    | some nxt =>
      if cur ∈ visited then (cur, 0, true)
      else
        let r := effGo m fuel nxt (cur :: visited)
        (r.1, r.2.1 + 1, r.2.2)

/-- Model of `TopicManager.get_effective_topic_id`. -/
def get_effective_topic_id (m : List (String × String)) (x : String) : String :=
  (effGo m (m.length + 1) x []).1

theorem effGo_spec (m : List (String × String)) :
    ∀ fuel : Nat, ∀ cur : String, ∀ visited : List String,
    visited.Nodup → (∀ v ∈ visited, v ∈ keysA m) →
    m.length - visited.length < fuel →
    (effGo m fuel cur visited).2.1 ≤ m.length - visited.length ∧
      ((effGo m fuel cur visited).2.2 = true ∨
        lookupA m (effGo m fuel cur visited).1 = none) ∧
      ((effGo m fuel cur visited).2.2 = true →
        (lookupA m (effGo m fuel cur visited).1).isSome) := by
  intro fuel
  induction fuel with
  | zero => intro cur visited _ _ hlt; omega
  | succ fuel ih =>
    intro cur visited hnd hsub hlt
    by_cases hcur : (lookupA m cur).isSome
    · obtain ⟨nxt, hnxt⟩ := Option.isSome_iff_exists.mp hcur
      by_cases hvis : cur ∈ visited
      · simp [effGo, hnxt, hvis]
      · have hcurk : cur ∈ keysA m := (lookupA_isSome_mem m cur).mp hcur
        have hndc : (cur :: visited).Nodup := List.nodup_cons.mpr ⟨hvis, hnd⟩
        have hsubc : ∀ v ∈ cur :: visited, v ∈ keysA m := by
          intro v hv
          rcases List.mem_cons.mp hv with h | h
          · exact h ▸ hcurk
          · exact hsub v h
        have hlen : (cur :: visited).length ≤ m.length := by
          have h1 : (cur :: visited).toFinset.card ≤ (keysA m).toFinset.card := by
            apply Finset.card_le_card
            intro a ha
            rw [List.mem_toFinset] at *
            exact hsubc a (by simpa using ha)
          have h2 : (cur :: visited).toFinset.card = (cur :: visited).length :=
            List.toFinset_card_of_nodup hndc
          have h3 : (keysA m).toFinset.card ≤ (keysA m).length :=
            List.toFinset_card_le _
          have h4 : (keysA m).length = m.length := List.length_map _ _
          omega
        have hlt2 : m.length - (cur :: visited).length < fuel := by
          simp only [List.length_cons] at *
          omega
        have hrec := ih nxt (cur :: visited) hndc hsubc hlt2
        simp only [effGo, hnxt, if_neg hvis]
        refine ⟨?_, hrec.2.1, hrec.2.2⟩
        have h1 : (effGo m fuel nxt (cur :: visited)).2.1 ≤ m.length - (visited.length + 1) := by
          simpa using hrec.1
        have h2 : visited.length + 1 ≤ m.length := by simpa using hlen
        omega
    · rw [Option.not_isSome_iff_eq_none] at hcur
      simp [effGo, hcur]

/-- C9: following the redirect map from any id terminates within at most `N`
hops (`N` = size of the map); the loop either stops at an id outside the
map's domain (flag `false`), or aborts at a revisited id, which is in the
map's domain (flag `true`).  The keys hypothesis models a Python dict, whose
keys are distinct. -/
theorem get_effective_topic_id_spec (m : List (String × String)) (x : String)
    (hkeys : (keysA m).Nodup) :
    (effGo m (m.length + 1) x []).2.1 ≤ m.length ∧
      ((effGo m (m.length + 1) x []).2.2 = true ∨
        lookupA m (get_effective_topic_id m x) = none) ∧
      ((effGo m (m.length + 1) x []).2.2 = true →
        (lookupA m (get_effective_topic_id m x)).isSome) := by
  have h := effGo_spec m (m.length + 1) x [] List.nodup_nil (by simp) (by simp)
  simpa [get_effective_topic_id] using h

/-- Witness for C9 on a concrete redirect map containing a cycle. -/
theorem get_effective_topic_id_spec_witness :
    (effGo [("1", "2"), ("2", "1")] 3 "1" []).2.1 ≤ 2 ∧
      ((effGo [("1", "2"), ("2", "1")] 3 "1" []).2.2 = true ∨
        lookupA [("1", "2"), ("2", "1")] (get_effective_topic_id [("1", "2"), ("2", "1")] "1") = none) ∧
      ((effGo [("1", "2"), ("2", "1")] 3 "1" []).2.2 = true →
        (lookupA [("1", "2"), ("2", "1")] (get_effective_topic_id [("1", "2"), ("2", "1")] "1")).isSome) :=
  get_effective_topic_id_spec [("1", "2"), ("2", "1")] "1" (by decide)

/-! ## Topic merge application (`update_topics_from_merge`, C1 and C2)

The first phase of `TopicManager.update_topics_from_merge` walks the merge
suggestions in order and, for each `(source_id, target_id, merge_type)` with
both ids present in the working map `source_topics`:

* `merge_type == "merge"`: extends the target's alias list with the source's
  `name_zh` and `name_en`, replaces it by `list(set(...))`, and marks the
  source entry `merged = True`, `status = "merged"`, `merged_to = target_id`;
* `merge_type == "update_merge"`: snapshots the target's
  `(name_zh, name_en, aliases)`, copies the source's corresponding fields
  into the target, the snapshot into the source, then marks the source
  entry as above.

A topic entry is modelled with all the fields these operations read or
write; dict keys that may be absent in the JSON (`aliases`, `merged`,
`merged_to`, `status`) are modelled as always-present fields at their
Python `get` defaults.  Python's `list(set(xs))` returns the distinct
elements of `xs` in an unspecified (hash-dependent) iteration order; it is
modelled by `dedupFirst`, and theorems rely only on its element set and
duplicate-freeness, which are order-independent. -/

/-- One entry of a topic store (`topic.json` / `middle_topic.json` /
`gen_topic.json`). -/
structure TopicEntry where
  name_zh : String
  name_en : String
  aliases : List String
  merged : Bool := false
  merged_to : Option String := none
  status : String := "pending"
  created_at : String := ""
deriving Repr, DecidableEq

/-- Model of Python `list(set(xs))` (see the section comment: order is
unspecified in Python; only the element set is meaningful). -/
def pySetList (xs : List String) : List String := dedupFirst xs

/-- The `merge_type == "merge"` branch of `update_topics_from_merge`,
for one suggestion `(a, b)` whose ids are both present. -/
def applyMergeAbsorb (T : List (String × TopicEntry)) (a b : String) :
    List (String × TopicEntry) :=
  match lookupA T a with
  | none => T
  | some sa =>
    let T1 := updateA T b (fun tb =>
      { tb with aliases := pySetList (tb.aliases ++ [sa.name_zh, sa.name_en]) })
    updateA T1 a (fun ta =>
      { ta with merged := true, status := "merged", merged_to := some b })

/-- The `merge_type == "update_merge"` branch of `update_topics_from_merge`,
for one suggestion `(a, b)` whose ids are both present.  `sa` and `tb` are
the entries read before any mutation, matching the Python order of
operations (snapshot, overwrite target, overwrite source, mark source). -/
def applyUpdateMerge (T : List (String × TopicEntry)) (a b : String) :
    List (String × TopicEntry) :=
  match lookupA T a, lookupA T b with
  | some sa, some tb =>
    let T1 := updateA T b (fun t =>
      { t with name_zh := sa.name_zh, name_en := sa.name_en, aliases := sa.aliases })
    let T2 := updateA T1 a (fun t =>
      { t with name_zh := tb.name_zh, name_en := tb.name_en, aliases := tb.aliases })
    updateA T2 a (fun t =>
      { t with merged := true, status := "merged", merged_to := some b })
  | _, _ => T

/-- One iteration of the suggestion loop in `update_topics_from_merge`:
skip when either id is absent, otherwise dispatch on the merge type. -/
def applySuggestion (T : List (String × TopicEntry)) (s : String × String × String) :
    List (String × TopicEntry) :=
  if (lookupA T s.1).isSome ∧ (lookupA T s.2.1).isSome then
    if s.2.2 = "merge" then applyMergeAbsorb T s.1 s.2.1
    else if s.2.2 = "update_merge" then applyUpdateMerge T s.1 s.2.1
    else T
  else T

/-- C1 counterexample: absorbing `1` into `2` where topic `1` has the alias
"x".  The claim requires "x" to be appended into topic `2`'s aliases, but
the code extends the target's aliases only with the source's `name_zh` and
`name_en` — the source's alias list is never copied. -/
theorem absorb_drops_source_aliases :
    (lookupA [("1", { name_zh := "na", name_en := "ea", aliases := ["x"] }),
              ("2", { name_zh := "nb", name_en := "eb", aliases := [] })]
        "1").map TopicEntry.aliases = some ["x"] ∧
    (lookupA (applyMergeAbsorb
        [("1", { name_zh := "na", name_en := "ea", aliases := ["x"] }),
         ("2", { name_zh := "nb", name_en := "eb", aliases := [] })] "1" "2")
        "2").map TopicEntry.aliases = some ["na", "ea"] := by
  exact ⟨rfl, by decide⟩

/-- C1 as amended: applying an absorb suggestion `(a, b)` to a working map
in which both ids are present and distinct makes `T[b].aliases` the
deduplication of `T[b].aliases ++ [T[a].name_zh, T[a].name_en]` (the
source's own aliases are not copied; order after dedup is unspecified, so
only membership and duplicate-freeness are stated), sets
`T[a].merged = true` and `T[a].merged_to = b`, and leaves every other field
of `T[b]` unchanged. -/
theorem applyMergeAbsorb_spec (T : List (String × TopicEntry)) (a b : String)
    (sa tb : TopicEntry) (hab : a ≠ b)
    (ha : lookupA T a = some sa) (hb : lookupA T b = some tb) :
    ∃ sa2 tb2 : TopicEntry,
      lookupA (applyMergeAbsorb T a b) a = some sa2 ∧
      lookupA (applyMergeAbsorb T a b) b = some tb2 ∧
      (∀ x, x ∈ tb2.aliases ↔ (x ∈ tb.aliases ∨ x = sa.name_zh ∨ x = sa.name_en)) ∧
      tb2.aliases.Nodup ∧
      sa2.merged = true ∧ sa2.merged_to = some b ∧
      tb2.name_zh = tb.name_zh ∧ tb2.name_en = tb.name_en ∧
      tb2.merged = tb.merged ∧ tb2.merged_to = tb.merged_to ∧
      tb2.status = tb.status ∧ tb2.created_at = tb.created_at := by
  refine ⟨{ sa with merged := true, status := "merged", merged_to := some b },
          { tb with aliases := pySetList (tb.aliases ++ [sa.name_zh, sa.name_en]) },
          ?_, ?_, ?_, ?_, rfl, rfl, rfl, rfl, rfl, rfl, rfl, rfl⟩
  · rw [applyMergeAbsorb, ha]
    simp only []
    rw [lookupA_updateA_self, lookupA_updateA_ne _ _ _ _ (fun e => hab e.symm), ha]
    rfl
  · rw [applyMergeAbsorb, ha]
    simp only []
    rw [lookupA_updateA_ne _ _ _ _ hab, lookupA_updateA_self, hb]
    rfl
  · intro x
    simp [pySetList, mem_dedupFirst]
  · exact nodup_dedupFirst _

/-- Witness for the amended C1 on a concrete two-topic store. -/
theorem applyMergeAbsorb_spec_witness :
    ∃ sa2 tb2 : TopicEntry,
      lookupA (applyMergeAbsorb
          [("1", { name_zh := "na", name_en := "ea", aliases := ["x"] }),
           ("2", { name_zh := "nb", name_en := "eb", aliases := ["y"] })] "1" "2")
        "1" = some sa2 ∧
      lookupA (applyMergeAbsorb
          [("1", { name_zh := "na", name_en := "ea", aliases := ["x"] }),
           ("2", { name_zh := "nb", name_en := "eb", aliases := ["y"] })] "1" "2")
        "2" = some tb2 ∧
      (∀ x, x ∈ tb2.aliases ↔ (x ∈ (["y"] : List String) ∨ x = "na" ∨ x = "ea")) ∧
      tb2.aliases.Nodup ∧
      sa2.merged = true ∧ sa2.merged_to = some "2" ∧
      tb2.name_zh = "nb" ∧ tb2.name_en = "eb" ∧
      tb2.merged = false ∧ tb2.merged_to = none ∧
      tb2.status = "pending" ∧ tb2.created_at = "" :=
  applyMergeAbsorb_spec
    [("1", { name_zh := "na", name_en := "ea", aliases := ["x"] }),
     ("2", { name_zh := "nb", name_en := "eb", aliases := ["y"] })]
    "1" "2" { name_zh := "na", name_en := "ea", aliases := ["x"] }
    { name_zh := "nb", name_en := "eb", aliases := ["y"] }
    (by decide) (by rfl) (by rfl)

/-- C2: after a swap-then-absorb suggestion `(a, b)` on a map containing
both (distinct) ids, the live id `b` carries the input `a`'s
`name_zh`/`name_en`/`aliases`, the merged id `a` carries the input `b`'s
original ones, `a` is marked merged with `merged_to = b`, and `b`'s
`merged_to` is unchanged. -/
theorem applyUpdateMerge_spec (T : List (String × TopicEntry)) (a b : String)
    (sa tb : TopicEntry) (hab : a ≠ b)
    (ha : lookupA T a = some sa) (hb : lookupA T b = some tb) :
    ∃ sa2 tb2 : TopicEntry,
      lookupA (applyUpdateMerge T a b) a = some sa2 ∧
      lookupA (applyUpdateMerge T a b) b = some tb2 ∧
      tb2.name_zh = sa.name_zh ∧ tb2.name_en = sa.name_en ∧
      tb2.aliases = sa.aliases ∧
      sa2.name_zh = tb.name_zh ∧ sa2.name_en = tb.name_en ∧
      sa2.aliases = tb.aliases ∧
      sa2.merged = true ∧ sa2.merged_to = some b ∧
      tb2.merged_to = tb.merged_to := by
  have hba : b ≠ a := fun e => hab e.symm
  refine ⟨{ sa with name_zh := tb.name_zh, name_en := tb.name_en, aliases := tb.aliases, merged := true, status := "merged", merged_to := some b },
          { tb with name_zh := sa.name_zh, name_en := sa.name_en, aliases := sa.aliases },
          ?_, ?_, rfl, rfl, rfl, rfl, rfl, rfl, rfl, rfl, rfl⟩
  · rw [applyUpdateMerge, ha, hb]
    simp only []
    rw [lookupA_updateA_self, lookupA_updateA_self, lookupA_updateA_ne _ _ _ _ hba, ha]
    rfl
  · rw [applyUpdateMerge, ha, hb]
    simp only []
    rw [lookupA_updateA_ne _ _ _ _ hab, lookupA_updateA_ne _ _ _ _ hab,
        lookupA_updateA_self, hb]
    rfl

/-- Witness for C2 on a concrete two-topic store. -/
theorem applyUpdateMerge_spec_witness :
    ∃ sa2 tb2 : TopicEntry,
      lookupA (applyUpdateMerge
          [("3", { name_zh := "A", name_en := "A", aliases := ["p"] }),
           ("7", { name_zh := "B", name_en := "B", aliases := ["q"] })] "3" "7")
        "3" = some sa2 ∧
      lookupA (applyUpdateMerge
          [("3", { name_zh := "A", name_en := "A", aliases := ["p"] }),
           ("7", { name_zh := "B", name_en := "B", aliases := ["q"] })] "3" "7")
        "7" = some tb2 ∧
      tb2.name_zh = "A" ∧ tb2.name_en = "A" ∧ tb2.aliases = ["p"] ∧
      sa2.name_zh = "B" ∧ sa2.name_en = "B" ∧ sa2.aliases = ["q"] ∧
      sa2.merged = true ∧ sa2.merged_to = some "7" ∧
      tb2.merged_to = none :=
  applyUpdateMerge_spec
    [("3", { name_zh := "A", name_en := "A", aliases := ["p"] }),
     ("7", { name_zh := "B", name_en := "B", aliases := ["q"] })]
    "3" "7" { name_zh := "A", name_en := "A", aliases := ["p"] }
    { name_zh := "B", name_en := "B", aliases := ["q"] }
    (by decide) (by rfl) (by rfl)

/-! ## Renumber into target (`_finalize_merge_to_topic_json`, C4)

`TopicManager._finalize_merge_to_topic_json` walks the working map in dict
iteration order, skips entries whose `merged` flag is truthy, assigns fresh
string ids `"1", "2", …` in that order, builds a fresh map keyed by the new
ids whose entries are `Topic(id, name_zh, name_en, aliases, created_at)`
objects, then overwrites `self.topics` with it and `self.topic_mapping`
with the empty dict.  (The `id_map` the code also builds is used only for a
debug log and is omitted.) -/

/-- One stable-store topic (`Topic` dataclass as written by
`_finalize_merge_to_topic_json`: no merge bookkeeping fields). -/
structure TopicOut where
  id : String
  name_zh : String
  name_en : String
  aliases : List String
  created_at : String
deriving Repr, DecidableEq

/-- The renumbering loop of `_finalize_merge_to_topic_json`: `nextId` is the
next fresh id to assign. -/
def finalizeLoop : List (String × TopicEntry) → Nat → List (String × TopicOut)
  | [], _ => []
  | (_, t) :: rest, nextId =>
    if t.merged then finalizeLoop rest nextId
    else (toString nextId,
          { id := toString nextId, name_zh := t.name_zh, name_en := t.name_en,
            aliases := t.aliases, created_at := t.created_at }) ::
         finalizeLoop rest (nextId + 1)

/-- Model of `_finalize_merge_to_topic_json`: the new `topics` store and the
new (cleared) `topic_mapping` redirect map. -/
def finalize_merge_to_topic_json (src : List (String × TopicEntry)) :
    List (String × TopicOut) × List (String × String) :=
  (finalizeLoop src 1, [])

/-- The non-merged entries of the working map, in iteration order. -/
def liveEntries (src : List (String × TopicEntry)) : List (String × TopicEntry) :=
  src.filter (fun p => !p.2.merged)

theorem liveEntries_cons_merged (k : String) (t : TopicEntry)
    (rest : List (String × TopicEntry)) (h : t.merged = true) :
    liveEntries ((k, t) :: rest) = liveEntries rest := by
  simp [liveEntries, h]

theorem liveEntries_cons_live (k : String) (t : TopicEntry)
    (rest : List (String × TopicEntry)) (h : ¬t.merged = true) :
    liveEntries ((k, t) :: rest) = (k, t) :: liveEntries rest := by
  simp [liveEntries, h]

theorem finalizeLoop_keys (src : List (String × TopicEntry)) :
    ∀ n : Nat, keysA (finalizeLoop src n)
      = (List.range (liveEntries src).length).map (fun i => toString (n + i)) := by
  induction src with
  | nil => intro n; simp [finalizeLoop, liveEntries, keysA]
  | cons p rest ih =>
    intro n
    obtain ⟨k, t⟩ := p
    by_cases h : t.merged
    · rw [liveEntries_cons_merged k t rest h]
      show keysA (finalizeLoop ((k, t) :: rest) n) = _
      rw [finalizeLoop, if_pos h, ih n]
    · rw [liveEntries_cons_live k t rest h]
      show keysA (finalizeLoop ((k, t) :: rest) n) = _
      rw [finalizeLoop, if_neg h]
      show toString n :: keysA (finalizeLoop rest (n + 1)) = _
      rw [ih (n + 1), List.length_cons, List.range_succ_eq_map]
      simp only [List.map_cons, List.map_map, Nat.add_zero]
      congr 1
      apply List.map_congr_left
      intro i _
      simp only [Function.comp_apply]
      congr 1
      omega

theorem finalizeLoop_values (src : List (String × TopicEntry)) :
    ∀ n : Nat, (finalizeLoop src n).map
        (fun p => (p.2.name_zh, p.2.name_en, p.2.aliases, p.2.created_at))
      = (liveEntries src).map
        (fun p => (p.2.name_zh, p.2.name_en, p.2.aliases, p.2.created_at)) := by
  induction src with
  | nil => intro n; simp [finalizeLoop, liveEntries]
  | cons p rest ih =>
    intro n
    obtain ⟨k, t⟩ := p
    by_cases h : t.merged
    · simp [finalizeLoop, liveEntries, h, ih n, List.filter]
    · have : liveEntries ((k, t) :: rest) = (k, t) :: liveEntries rest := by
        simp [liveEntries, List.filter, h]
      simp [finalizeLoop, h, this, ih (n + 1)]

theorem finalizeLoop_id_field (src : List (String × TopicEntry)) :
    ∀ n : Nat, ∀ p ∈ finalizeLoop src n, p.2.id = p.1 := by
  induction src with
  | nil => intro n p hp; simp [finalizeLoop] at hp
  | cons q rest ih =>
    intro n p hp
    obtain ⟨k, t⟩ := q
    by_cases h : t.merged
    · rw [finalizeLoop, if_pos h] at hp
      exact ih n p hp
    · rw [finalizeLoop, if_neg h] at hp
      rcases List.mem_cons.mp hp with h1 | h1
      · subst h1; rfl
      · exact ih (n + 1) p h1

/-- C4: after `_finalize_merge_to_topic_json`, the target store contains
exactly the non-merged entries of the source, in iteration order; its keys
are exactly `"1" … "N"` (`N` = number of non-merged entries) assigned in
that order with no gaps; each stored `Topic.id` equals its key; and the
redirect map is cleared. -/
theorem finalize_merge_to_topic_json_spec (src : List (String × TopicEntry)) :
    keysA (finalize_merge_to_topic_json src).1
        = (List.range (liveEntries src).length).map (fun i => toString (i + 1)) ∧
      (finalize_merge_to_topic_json src).1.map
          (fun p => (p.2.name_zh, p.2.name_en, p.2.aliases, p.2.created_at))
        = (liveEntries src).map
          (fun p => (p.2.name_zh, p.2.name_en, p.2.aliases, p.2.created_at)) ∧
      (∀ p ∈ (finalize_merge_to_topic_json src).1, p.2.id = p.1) ∧
      (finalize_merge_to_topic_json src).2 = [] := by
  refine ⟨?_, finalizeLoop_values src 1, finalizeLoop_id_field src 1, rfl⟩
  rw [finalize_merge_to_topic_json]
  simp only []
  rw [finalizeLoop_keys src 1]
  apply List.map_congr_left
  intro i _
  congr 1
  omega

/-! ## Whole-paper polish (`_polish_entire_paper` / `_parse_polished_content`, C3)

`_parse_polished_content` splits the LLM output on newlines, starts a new
section at every line beginning with `"## "` (section name =
`line[3:].strip()`), collects subsequent lines while the current section
name is truthy, and saves `"\n".join(lines).strip()` under the section name
when both the name and the collected lines are truthy.
`_polish_entire_paper` then returns the parsed dict if it is non-empty and
the pre-polish `sections` dict otherwise
(`polished_sections if polished_sections else sections`);
`generate_paper_sequentially` returns that value as the final paper.  The
LLM call is abstracted as the `polishedContent` string argument.

Strings are processed as their character lists (`String.data`), since the
claims are settled by evaluating the parser on concrete inputs; Python's
`str.strip()` is modelled by dropping `Char.isWhitespace` characters from
both ends (Python also strips `\f`/`\v` and other Unicode whitespace, which
does not matter for the texts involved). -/

/-- Python `s.strip()` on a character list. -/
def stripChars (l : List Char) : List Char :=
  ((l.dropWhile Char.isWhitespace).reverse.dropWhile Char.isWhitespace).reverse

/-- Python `s.split('\n')` on a character list. -/
def splitNl : List Char → List (List Char)
  | [] => [[]]
  | c :: rest =>
    if c = '\n' then [] :: splitNl rest
    else
      match splitNl rest with
      | g :: gs => (c :: g) :: gs
      | [] => [[c]]

/-- Python `'\n'.join(ls)` on character lists. -/
def joinNl (ls : List (List Char)) : List Char :=
  List.intercalate ['\n'] ls

/-- The line loop of `_parse_polished_content`.  `cs` is `current_section`
(`none` before any `## ` marker), `cc` is `current_content`, `sections` the
dict built so far. -/
def parsePolishedLoop : List (List Char) → Option (List Char) → List (List Char) →
    List (List Char × List Char) → List (List Char × List Char)
  | [], cs, cc, sections =>
    match cs with
    | some s =>
      if s ≠ [] ∧ cc ≠ [] then setA sections s (stripChars (joinNl cc))
      else sections
    | none => sections
  | line :: rest, cs, cc, sections =>
    if ['#', '#', ' '].isPrefixOf line then
      let sections1 :=
        match cs with
        | some s =>
          if s ≠ [] ∧ cc ≠ [] then setA sections s (stripChars (joinNl cc))
          else sections
        | none => sections
      parsePolishedLoop rest (some (stripChars (line.drop 3))) [] sections1
    else
      match cs with
      | some s =>
        if s ≠ [] then parsePolishedLoop rest cs (cc ++ [line]) sections
        else parsePolishedLoop rest cs cc sections
      | none => parsePolishedLoop rest cs cc sections

/-- Model of `_parse_polished_content`. -/
def parse_polished_content (content : String) : List (String × String) :=
  (parsePolishedLoop (splitNl content.data) none [] []).map
    (fun p => (String.mk p.1, String.mk p.2))

/-- Model of the tail of `_polish_entire_paper`
(`return polished_sections if polished_sections else sections`), which
`generate_paper_sequentially` returns as the final paper. -/
def polish_entire_paper (sections : List (String × String))
    (polishedContent : String) : List (String × String) :=
  let ps := parse_polished_content polishedContent
  if ps.isEmpty then sections else ps

/-- C3 counterexample: with five pre-polish drafts and a polish output
containing only the 引言 (Introduction) section, the parse succeeds with one
section, so the returned paper consists of that single section — the 方法
(Method) section does not fall back to its pre-polish draft, it disappears. -/
theorem polish_drops_omitted_sections :
    lookupA (polish_entire_paper
        [("引言", "d1"), ("相关工作", "d2"), ("方法", "d3"), ("实验评价", "d4"), ("总结", "d5")]
        "## 引言\npolished") "方法" = none ∧
    lookupA [("引言", "d1"), ("相关工作", "d2"), ("方法", "d3"), ("实验评价", "d4"), ("总结", "d5")]
        "方法" = some "d3" ∧
    polish_entire_paper
        [("引言", "d1"), ("相关工作", "d2"), ("方法", "d3"), ("实验评价", "d4"), ("总结", "d5")]
        "## 引言\npolished" = [("引言", "polished")] := by
  refine ⟨?_, by decide, ?_⟩ <;> decide

/-- C3 as amended: if parsing the polish output yields no section at all,
every section of the returned paper equals its pre-polish draft (the whole
draft dict is returned); otherwise the returned paper is exactly the parsed
polish output — sections present in it carry their polished text, and a
section missing from a non-empty polish output is absent from the returned
paper rather than falling back to its draft. -/
theorem polish_entire_paper_spec (sections : List (String × String)) (out : String) :
    (parse_polished_content out = [] → polish_entire_paper sections out = sections) ∧
      (∀ s v, lookupA (parse_polished_content out) s = some v →
        lookupA (polish_entire_paper sections out) s = some v) ∧
      (parse_polished_content out ≠ [] →
        ∀ s, lookupA (polish_entire_paper sections out) s
          = lookupA (parse_polished_content out) s) := by
  refine ⟨fun h => ?_, fun s v hv => ?_, fun h s => ?_⟩
  · simp [polish_entire_paper, h]
  · have hne : parse_polished_content out ≠ [] := by
      intro he; rw [he] at hv; simp [lookupA] at hv
    simp only [polish_entire_paper, List.isEmpty_iff, if_neg hne]
    exact hv
  · simp [polish_entire_paper, List.isEmpty_iff, h]

/-- Witness for the amended C3: a polish output containing 引言 and 方法
replaces both sections and drops none of the parsed ones. -/
theorem polish_entire_paper_spec_witness :
    (parse_polished_content "## 引言\nX\n## 方法\nY" = [] →
        polish_entire_paper [("引言", "d1"), ("方法", "d3")] "## 引言\nX\n## 方法\nY"
          = [("引言", "d1"), ("方法", "d3")]) ∧
      (∀ s v, lookupA (parse_polished_content "## 引言\nX\n## 方法\nY") s = some v →
        lookupA (polish_entire_paper [("引言", "d1"), ("方法", "d3")] "## 引言\nX\n## 方法\nY") s
          = some v) ∧
      (parse_polished_content "## 引言\nX\n## 方法\nY" ≠ [] →
        ∀ s, lookupA (polish_entire_paper [("引言", "d1"), ("方法", "d3")] "## 引言\nX\n## 方法\nY") s
          = lookupA (parse_polished_content "## 引言\nX\n## 方法\nY") s) :=
  polish_entire_paper_spec [("引言", "d1"), ("方法", "d3")] "## 引言\nX\n## 方法\nY"

/-! ## Source-text selection (`select_most_relevant_source_texts`, C6)

`SourceTextRetriever._find_most_relevant_paper` walks the given aspect
names in order, looks at the first (top) hit of each aspect present in the
step-1 result map, and keeps the hit with the smallest `score`
(`best_score` starts at `float('inf')`; a hit without a `score` key counts
as `inf` and can never win the strict `<`).
`select_most_relevant_source_texts` then fetches the full 方法 (Method)
section of the best methodology paper and the full 实验评价 (Experiments)
section of the best experiment paper, attaching both under one key when the
two papers coincide.

Scores are modelled as `Option ℚ` (`none` = missing = `inf`); the DB
fetch `_get_complete_section_content` is abstracted as the function
argument `fetch` (its first argument is an `Option String` because the
Python code can pass `None` through in the `elif` branch when both picks
are `None`); result keys are `Option String` for the same reason. -/

/-- One normalized step-1 hit, with the fields `_find_most_relevant_paper`
reads. -/
structure SummaryHit where
  paper_id : String
  score : Option ℚ
deriving Repr, DecidableEq

/-- Strict `<` on scores where `none` plays `float('inf')`. -/
def ltScore : Option ℚ → Option ℚ → Bool
  | some a, some b => decide (a < b)
  | some _, none => true
  | none, _ => false

/-- The aspect loop of `_find_most_relevant_paper`. -/
def findBestLoop (rs : List (String × List SummaryHit)) :
    List String → Option String → Option ℚ → Option String × Option ℚ
  | [], best, bestScore => (best, bestScore)
  | t :: ts, best, bestScore =>
    match lookupA rs t with
    | some (h :: _) =>
      if ltScore h.score bestScore then findBestLoop rs ts (some h.paper_id) h.score
      else findBestLoop rs ts best bestScore
    | _ => findBestLoop rs ts best bestScore

/-- Model of `_find_most_relevant_paper`. -/
def find_most_relevant_paper (rs : List (String × List SummaryHit))
    (types : List String) : Option String :=
  (findBestLoop rs types none none).1

/-- Python truthiness of an optional string (`if paper_id:`). -/
def truthyId : Option String → Bool
  | some s => s ≠ ""
  | none => false

/-- The methodology half of `select_most_relevant_source_texts`: the
`selected_source_texts` dict after the first `if` block. -/
def selectStage1 (fetch : Option String → String → List String)
    (rs : List (String × List SummaryHit)) :
    List (Option String × List (String × List String)) :=
  let methId := find_most_relevant_paper rs ["methodology"]
  if truthyId methId then
    let mc := fetch methId "方法"
    if mc ≠ [] then [(methId, [("方法", mc)])] else []
  else []

/-- The experiment half of `select_most_relevant_source_texts`, operating on
the dict `st1` produced by the methodology half.  `ec` is the fetched
实验评价 content (the Python code fetches it inside each branch; `fetch` is
pure in this model, so the call is hoisted). -/
def selectStage2 (methId expId : Option String) (ec : List String)
    (st1 : List (Option String × List (String × List String))) :
    List (Option String × List (String × List String)) :=
  if truthyId expId ∧ expId ≠ methId then
    if ec ≠ [] then setA st1 expId [("实验评价", ec)] else st1
  else if expId = methId then
    if ec ≠ [] then
      if (lookupA st1 methId).isSome then
        updateA st1 methId (fun m => setA m "实验评价" ec)
      else setA st1 methId [("实验评价", ec)]
    else st1
  else st1

/-- Model of `select_most_relevant_source_texts`: the returned mapping
`{paper_id → {section → chunks}}`. -/
def select_most_relevant_source_texts (fetch : Option String → String → List String)
    (rs : List (String × List SummaryHit)) :
    List (Option String × List (String × List String)) :=
  selectStage2 (find_most_relevant_paper rs ["methodology"])
    (find_most_relevant_paper rs ["expedesign", "baseline", "metric", "resultanalysis"])
    (fetch (find_most_relevant_paper rs ["expedesign", "baseline", "metric", "resultanalysis"])
      "实验评价")
    (selectStage1 fetch rs)

theorem selectStage1_cases (fetch : Option String → String → List String)
    (rs : List (String × List SummaryHit)) :
    selectStage1 fetch rs = [] ∨
      selectStage1 fetch rs
        = [(find_most_relevant_paper rs ["methodology"],
            [("方法", fetch (find_most_relevant_paper rs ["methodology"]) "方法")])] := by
  rw [selectStage1]
  by_cases h1 : truthyId (find_most_relevant_paper rs ["methodology"])
  · by_cases h2 : fetch (find_most_relevant_paper rs ["methodology"]) "方法" = []
    · simp [h1, h2]
    · simp [h1, h2]
  · simp [h1]

theorem selectStage2_shapes (M E : Option String) (mc ec : List String)
    (st1 : List (Option String × List (String × List String)))
    (hst : st1 = [] ∨ st1 = [(M, [("方法", mc)])]) :
    selectStage2 M E ec st1 = [] ∨
      selectStage2 M E ec st1 = [(M, [("方法", mc)])] ∨
      selectStage2 M E ec st1 = [(E, [("实验评价", ec)])] ∨
      selectStage2 M E ec st1 = [(M, [("方法", mc)]), (E, [("实验评价", ec)])] ∨
      (M = E ∧ selectStage2 M E ec st1 = [(M, [("方法", mc), ("实验评价", ec)])]) ∨
      (M = E ∧ selectStage2 M E ec st1 = [(M, [("实验评价", ec)])]) := by
  rw [selectStage2]
  by_cases h3 : truthyId E = true ∧ E ≠ M
  · rw [if_pos h3]
    by_cases h4 : ec = []
    · rw [if_neg (not_not_intro h4)]
      rcases hst with h | h
      · exact Or.inl h
      · exact Or.inr (Or.inl h)
    · rw [if_pos h4]
      rcases hst with h | h <;> subst h
      · right; right; left
        simp [setA]
      · right; right; right; left
        have hME : ¬(M = E) := fun he => h3.2 he.symm
        simp [setA, hME]
  · rw [if_neg h3]
    by_cases h5 : E = M
    · rw [if_pos h5]
      by_cases h4 : ec = []
      · rw [if_neg (not_not_intro h4)]
        rcases hst with h | h
        · exact Or.inl h
        · exact Or.inr (Or.inl h)
      · rw [if_pos h4]
        rcases hst with h | h <;> subst h
        · rw [if_neg (by simp [lookupA])]
          right; right; right; right; right
          exact ⟨h5.symm, by simp [setA]⟩
        · rw [if_pos (by simp [lookupA])]
          right; right; right; right; left
          refine ⟨h5.symm, ?_⟩
          simp [updateA, setA]
    · rw [if_neg h5]
      rcases hst with h | h
      · exact Or.inl h
      · exact Or.inr (Or.inl h)

theorem select_shapes (fetch : Option String → String → List String)
    (rs : List (String × List SummaryHit)) :
    select_most_relevant_source_texts fetch rs = [] ∨
      select_most_relevant_source_texts fetch rs
        = [(find_most_relevant_paper rs ["methodology"],
            [("方法", fetch (find_most_relevant_paper rs ["methodology"]) "方法")])] ∨
      select_most_relevant_source_texts fetch rs
        = [(find_most_relevant_paper rs ["expedesign", "baseline", "metric", "resultanalysis"],
            [("实验评价",
              fetch (find_most_relevant_paper rs ["expedesign", "baseline", "metric", "resultanalysis"])
                "实验评价")])] ∨
      select_most_relevant_source_texts fetch rs
        = [(find_most_relevant_paper rs ["methodology"],
            [("方法", fetch (find_most_relevant_paper rs ["methodology"]) "方法")]),
           (find_most_relevant_paper rs ["expedesign", "baseline", "metric", "resultanalysis"],
            [("实验评价",
              fetch (find_most_relevant_paper rs ["expedesign", "baseline", "metric", "resultanalysis"])
                "实验评价")])] ∨
      (find_most_relevant_paper rs ["methodology"]
          = find_most_relevant_paper rs ["expedesign", "baseline", "metric", "resultanalysis"] ∧
        select_most_relevant_source_texts fetch rs
          = [(find_most_relevant_paper rs ["methodology"],
              [("方法", fetch (find_most_relevant_paper rs ["methodology"]) "方法"),
               ("实验评价",
                fetch (find_most_relevant_paper rs ["expedesign", "baseline", "metric", "resultanalysis"])
                  "实验评价")])]) ∨
      (find_most_relevant_paper rs ["methodology"]
          = find_most_relevant_paper rs ["expedesign", "baseline", "metric", "resultanalysis"] ∧
        select_most_relevant_source_texts fetch rs
          = [(find_most_relevant_paper rs ["methodology"],
              [("实验评价",
                fetch (find_most_relevant_paper rs ["expedesign", "baseline", "metric", "resultanalysis"])
                  "实验评价")])]) :=
  selectStage2_shapes (find_most_relevant_paper rs ["methodology"])
    (find_most_relevant_paper rs ["expedesign", "baseline", "metric", "resultanalysis"])
    (fetch (find_most_relevant_paper rs ["methodology"]) "方法")
    (fetch (find_most_relevant_paper rs ["expedesign", "baseline", "metric", "resultanalysis"])
      "实验评价")
    (selectStage1 fetch rs) (selectStage1_cases fetch rs)

theorem select_same_paper (fetch : Option String → String → List String)
    (rs : List (String × List SummaryHit)) (X : String)
    (hM : find_most_relevant_paper rs ["methodology"] = some X)
    (hE : find_most_relevant_paper rs ["expedesign", "baseline", "metric", "resultanalysis"]
      = some X)
    (hX : X ≠ "") (hmc : fetch (some X) "方法" ≠ []) (hec : fetch (some X) "实验评价" ≠ []) :
    select_most_relevant_source_texts fetch rs
      = [(some X, [("方法", fetch (some X) "方法"),
                   ("实验评价", fetch (some X) "实验评价")])] := by
  have hst : selectStage1 fetch rs = [(some X, [("方法", fetch (some X) "方法")])] := by
    rw [selectStage1, hM]
    simp [truthyId, hX, hmc]
  rw [select_most_relevant_source_texts, hM, hE, hst, selectStage2]
  have h3 : ¬(truthyId (some X) = true ∧ (some X : Option String) ≠ some X) := by simp
  rw [if_neg h3, if_pos rfl, if_pos hec]
  rw [if_pos (by simp [lookupA] : (lookupA [(some X, [("方法", fetch (some X) "方法")])] (some X)).isSome = true)]
  simp [updateA, setA]

/-- C6: the step-3 output has at most two entries, every key is the best
methodology pick or the best experiment pick, 方法 chunks appear only under
the best methodology pick and 实验评价 chunks only under the best experiment
pick, and when both picks are one (truthy) paper X with non-empty fetched
content the output is exactly one entry for X carrying both sections. -/
theorem select_most_relevant_source_texts_spec
    (fetch : Option String → String → List String)
    (rs : List (String × List SummaryHit)) :
    (select_most_relevant_source_texts fetch rs).length ≤ 2 ∧
      (∀ k ∈ keysA (select_most_relevant_source_texts fetch rs),
        k = find_most_relevant_paper rs ["methodology"] ∨
        k = find_most_relevant_paper rs ["expedesign", "baseline", "metric", "resultanalysis"]) ∧
      (∀ k m, (k, m) ∈ select_most_relevant_source_texts fetch rs →
        ("方法" ∈ keysA m → k = find_most_relevant_paper rs ["methodology"]) ∧
        ("实验评价" ∈ keysA m →
          k = find_most_relevant_paper rs ["expedesign", "baseline", "metric", "resultanalysis"])) ∧
      (∀ X : String,
        find_most_relevant_paper rs ["methodology"] = some X →
        find_most_relevant_paper rs ["expedesign", "baseline", "metric", "resultanalysis"]
          = some X →
        X ≠ "" → fetch (some X) "方法" ≠ [] → fetch (some X) "实验评价" ≠ [] →
        select_most_relevant_source_texts fetch rs
          = [(some X, [("方法", fetch (some X) "方法"),
                       ("实验评价", fetch (some X) "实验评价")])]) := by
  refine ⟨?_, ?_, ?_, fun X h1 h2 h3 h4 h5 => select_same_paper fetch rs X h1 h2 h3 h4 h5⟩
  · rcases select_shapes fetch rs with h | h | h | h | ⟨_, h⟩ | ⟨_, h⟩ <;> rw [h] <;> simp
  · intro k hk
    rcases select_shapes fetch rs with h | h | h | h | ⟨_, h⟩ | ⟨_, h⟩ <;> rw [h] at hk <;>
      simp [keysA] at hk <;> tauto
  · intro k m hkm
    rcases select_shapes fetch rs with h | h | h | h | ⟨he, h⟩ | ⟨he, h⟩ <;> rw [h] at hkm <;>
      simp at hkm
    · rcases hkm with ⟨hk, hm⟩
      subst hk; subst hm
      constructor <;> intro hx <;> simp [keysA] at hx <;> simp [hx]
    · rcases hkm with ⟨hk, hm⟩
      subst hk; subst hm
      constructor <;> intro hx <;> simp [keysA] at hx <;> simp [hx]
    · rcases hkm with ⟨hk, hm⟩ | ⟨hk, hm⟩ <;> subst hk <;> subst hm <;>
        constructor <;> intro hx <;> simp [keysA] at hx <;> simp [hx]
    · rcases hkm with ⟨hk, hm⟩
      subst hk; subst hm
      exact ⟨fun _ => rfl, fun _ => he.symm ▸ rfl⟩
    · rcases hkm with ⟨hk, hm⟩
      subst hk; subst hm
      constructor
      · intro hx; simp [keysA] at hx
      · intro _; exact he.symm ▸ rfl

/-- Witness for C6: both picks resolve to paper "X", and the output is a
single entry carrying both sections. -/
theorem select_most_relevant_source_texts_spec_witness :
    select_most_relevant_source_texts
        (fun pid sec => if pid = some "X" then (if sec = "方法" then ["m1"] else ["e1"]) else [])
        [("methodology", [⟨"X", some 1⟩]), ("expedesign", [⟨"X", some 2⟩])]
      = [(some "X", [("方法", ["m1"]), ("实验评价", ["e1"])])] :=
  (select_most_relevant_source_texts_spec
      (fun pid sec => if pid = some "X" then (if sec = "方法" then ["m1"] else ["e1"]) else [])
      [("methodology", [⟨"X", some 1⟩]), ("expedesign", [⟨"X", some 2⟩])]).2.2.2
    "X" (by decide) (by decide) (by decide) (by decide) (by decide)

/-! ## Cross-paper pattern analysis (`_identify_patterns`, C7)

`CrossPaperAnalyzer._identify_patterns` concatenates the `topics` lists of
the aspect's hits (with multiplicity), counts occurrences with a
`Counter`, and, for each of `Counter.most_common(5)` — the five topics with
the highest occurrence counts, ties broken by first occurrence, which is
what CPython's insertion-ordered `Counter` plus stable `sorted` produce —
emits `"{topic}在{count}/{total}篇论文中被提及({pct:.1f}%)"` when the count
is at least 2.  A pattern entry is modelled structurally as the triple
`(topic, count, total)` that determines the formatted string.
`analyze_cross_paper_patterns` runs this for the five key aspect types
present in the step-1 map with at least 2 hits; of the per-aspect insight
dict, only the `patterns` field — the subject of the claim — is modelled. -/

/-- One step-1 hit as consumed by the analyzer. -/
structure PaperSummary where
  paper_id : String
  summary_text : String
  topics : List String
deriving Repr, DecidableEq

/-- `all_topics`: concatenation of the hits' topic lists, with
multiplicity. -/
def allTopicsOf (summaries : List PaperSummary) : List String :=
  (summaries.map (fun s => s.topics)).join

/-- `Counter(all_topics)` as an insertion-ordered item list. -/
def counterItems (xs : List String) : List (String × Nat) :=
  (dedupFirst xs).map (fun t => (t, xs.count t))

/-- Insert into a count-descending list after all entries with a count
`≥` the new one (stability for equal counts). -/
def insertDescByCount (x : String × Nat) : List (String × Nat) → List (String × Nat)
  | [] => [x]
  | y :: ys => if x.2 ≤ y.2 then y :: insertDescByCount x ys else x :: y :: ys

/-- `Counter.most_common()`: items sorted by count descending, stably. -/
def mostCommon (xs : List String) : List (String × Nat) :=
  (counterItems xs).foldl (fun acc x => insertDescByCount x acc) []

/-- Model of `_identify_patterns`: the emitted `(topic, count, total)`
triples. -/
def identify_patterns (summaries : List PaperSummary) : List (String × Nat × Nat) :=
  let all := allTopicsOf summaries
  if all.isEmpty then []
  else
    ((mostCommon all).take 5).filterMap
      (fun tc => if 2 ≤ tc.2 then some (tc.1, tc.2, summaries.length) else none)

/-- `self.key_analysis_types`. -/
def key_analysis_types : List String :=
  ["methodology", "innovations", "challenges", "expedesign", "metric"]

/-- One iteration of the aspect loop of `analyze_cross_paper_patterns`:
analyze aspect `t` when present with at least 2 hits. -/
def analyzeStep (rs : List (String × List PaperSummary))
    (acc : List (String × List (String × Nat × Nat))) (t : String) :
    List (String × List (String × Nat × Nat)) :=
  match lookupA rs t with
  | some ss => if 2 ≤ ss.length then acc ++ [(t, identify_patterns ss)] else acc
  | none => acc

/-- Model of `analyze_cross_paper_patterns`, restricted to the `patterns`
field of each per-aspect insight. -/
def analyze_cross_paper_patterns (rs : List (String × List PaperSummary)) :
    List (String × List (String × Nat × Nat)) :=
  key_analysis_types.foldl (analyzeStep rs) []

theorem mem_insertDescByCount (x a : String × Nat) (l : List (String × Nat)) :
    a ∈ insertDescByCount x l ↔ a = x ∨ a ∈ l := by
  induction l with
  | nil => simp [insertDescByCount]
  | cons y ys ih =>
    rw [insertDescByCount]
    by_cases h : x.2 ≤ y.2
    · rw [if_pos h]
      simp only [List.mem_cons, ih]
      tauto
    · rw [if_neg h]
      simp only [List.mem_cons]

theorem mem_mostCommonFold (l acc : List (String × Nat)) (a : String × Nat) :
    a ∈ l.foldl (fun acc x => insertDescByCount x acc) acc ↔ a ∈ acc ∨ a ∈ l := by
  induction l generalizing acc with
  | nil => simp
  | cons x xs ih =>
    rw [List.foldl_cons, ih]
    simp only [mem_insertDescByCount, List.mem_cons]
    tauto

theorem length_mostCommonFold (l acc : List (String × Nat)) :
    (l.foldl (fun acc x => insertDescByCount x acc) acc).length = acc.length + l.length := by
  induction l generalizing acc with
  | nil => simp
  | cons x xs ih =>
    rw [List.foldl_cons, ih]
    have : (insertDescByCount x acc).length = acc.length + 1 := by
      induction acc with
      | nil => simp [insertDescByCount]
      | cons y ys ih2 =>
        rw [insertDescByCount]
        by_cases h : x.2 ≤ y.2
        · rw [if_pos h]; simp [ih2]
        · rw [if_neg h]; simp
    rw [this]
    simp [Nat.add_assoc, Nat.add_comm 1 xs.length]

theorem mem_mostCommon (xs : List String) (a : String × Nat) :
    a ∈ mostCommon xs ↔ a ∈ counterItems xs := by
  rw [mostCommon, mem_mostCommonFold]
  simp

theorem length_mostCommon (xs : List String) :
    (mostCommon xs).length = (dedupFirst xs).length := by
  rw [mostCommon, length_mostCommonFold]
  simp [counterItems]

theorem identify_patterns_sound (ss : List PaperSummary) (p : String × Nat × Nat)
    (hp : p ∈ identify_patterns ss) :
    p.2.2 = ss.length ∧ p.2.1 = (allTopicsOf ss).count p.1 ∧ 2 ≤ p.2.1 := by
  rw [identify_patterns] at hp
  by_cases he : (allTopicsOf ss).isEmpty
  · rw [if_pos he] at hp; simp at hp
  · rw [if_neg he] at hp
    rcases List.mem_filterMap.mp hp with ⟨tc, htc, hf⟩
    have htc2 : tc ∈ mostCommon (allTopicsOf ss) := List.mem_of_mem_take htc
    rw [mem_mostCommon, counterItems] at htc2
    rcases List.mem_map.mp htc2 with ⟨t, _, ht2⟩
    by_cases hc : 2 ≤ tc.2
    · rw [if_pos hc] at hf
      cases hf
      refine ⟨rfl, ?_, hc⟩
      simp only [← ht2]
    · rw [if_neg hc] at hf
      cases hf

theorem identify_patterns_complete (ss : List PaperSummary)
    (hsmall : (dedupFirst (allTopicsOf ss)).length ≤ 5)
    (topic : String) (hmem : topic ∈ allTopicsOf ss)
    (hcount : 2 ≤ (allTopicsOf ss).count topic) :
    (topic, (allTopicsOf ss).count topic, ss.length) ∈ identify_patterns ss := by
  rw [identify_patterns]
  have hne : ¬(allTopicsOf ss).isEmpty := by
    rw [List.isEmpty_iff]
    intro h
    rw [h] at hmem
    simp at hmem
  rw [if_neg hne]
  have htake : (mostCommon (allTopicsOf ss)).take 5 = mostCommon (allTopicsOf ss) :=
    List.take_of_length_le (by rw [length_mostCommon]; exact hsmall)
  rw [htake]
  apply List.mem_filterMap.mpr
  refine ⟨(topic, (allTopicsOf ss).count topic), ?_, ?_⟩
  · rw [mem_mostCommon, counterItems]
    exact List.mem_map.mpr ⟨topic, (mem_dedupFirst _ _).mpr hmem, rfl⟩
  · rw [if_pos hcount]

theorem lookupA_append {κ α : Type} [DecidableEq κ] (l1 l2 : List (κ × α)) (k : κ) :
    lookupA (l1 ++ l2) k
      = match lookupA l1 k with
        | some v => some v
        | none => lookupA l2 k := by
  induction l1 with
  | nil => simp [lookupA]
  | cons p rest ih =>
    obtain ⟨k0, v0⟩ := p
    by_cases h : k0 = k <;> simp [lookupA, h, ih]

theorem analyzeStep_none (rs : List (String × List PaperSummary))
    (acc : List (String × List (String × Nat × Nat))) (t : String)
    (h : lookupA rs t = none) : analyzeStep rs acc t = acc := by
  rw [analyzeStep, h]

theorem analyzeStep_some_big (rs : List (String × List PaperSummary))
    (acc : List (String × List (String × Nat × Nat))) (t : String)
    (ss : List PaperSummary) (h : lookupA rs t = some ss) (hl : 2 ≤ ss.length) :
    analyzeStep rs acc t = acc ++ [(t, identify_patterns ss)] := by
  rw [analyzeStep, h]
  simp only [if_pos hl]

theorem analyzeStep_some_small (rs : List (String × List PaperSummary))
    (acc : List (String × List (String × Nat × Nat))) (t : String)
    (ss : List PaperSummary) (h : lookupA rs t = some ss) (hl : ¬2 ≤ ss.length) :
    analyzeStep rs acc t = acc := by
  rw [analyzeStep, h]
  simp only [if_neg hl]

theorem analyze_fold_mem (rs : List (String × List PaperSummary)) (ts : List String) :
    ∀ acc : List (String × List (String × Nat × Nat)), ∀ t pats,
      lookupA (ts.foldl (analyzeStep rs) acc) t = some pats →
      lookupA acc t = some pats ∨
        (t ∈ ts ∧ ∃ ss, lookupA rs t = some ss ∧ 2 ≤ ss.length ∧
          pats = identify_patterns ss) := by
  induction ts with
  | nil => intro acc t pats h; exact Or.inl h
  | cons t0 ts ih =>
    intro acc t pats h
    rw [List.foldl_cons] at h
    rcases ih _ t pats h with h2 | h2
    · rcases hl : lookupA rs t0 with _ | ss
      · rw [analyzeStep_none rs acc t0 hl] at h2
        exact Or.inl h2
      · by_cases hlen : 2 ≤ ss.length
        · rw [analyzeStep_some_big rs acc t0 ss hl hlen] at h2
          rw [lookupA_append] at h2
          rcases hacc : lookupA acc t with _ | v
          · rw [hacc] at h2
            simp only [lookupA] at h2
            by_cases ht : t0 = t
            · rw [if_pos ht] at h2
              cases h2
              exact Or.inr ⟨by simp [← ht], ss, ht ▸ hl, hlen, rfl⟩
            · rw [if_neg ht] at h2
              cases h2
          · rw [hacc] at h2
            injection h2 with h3
            subst h3
            exact Or.inl rfl
        · rw [analyzeStep_some_small rs acc t0 ss hl hlen] at h2
          exact Or.inl h2
    · exact Or.inr ⟨List.mem_cons_of_mem t0 h2.1, h2.2⟩

/-- C7 as amended: for every analyzed aspect (one of the five key types,
present with at least 2 hits), every emitted pattern entry `(t, k, n)` has
`n` = the number of hits, `k` = the total number of occurrences of `t`
across the hits' topic lists (counted with multiplicity, not per hit) and
`k ≥ 2`; at most 5 entries are emitted (the 5 most frequent topics); and
whenever the hits carry at most 5 distinct topic strings, an entry is
emitted for exactly every topic with `k ≥ 2`. -/
theorem analyze_cross_paper_patterns_spec (rs : List (String × List PaperSummary))
    (t : String) (pats : List (String × Nat × Nat))
    (h : lookupA (analyze_cross_paper_patterns rs) t = some pats) :
    t ∈ key_analysis_types ∧
      ∃ ss, lookupA rs t = some ss ∧ 2 ≤ ss.length ∧
        pats.length ≤ 5 ∧
        (∀ p ∈ pats, p.2.2 = ss.length ∧ p.2.1 = (allTopicsOf ss).count p.1 ∧ 2 ≤ p.2.1) ∧
        ((dedupFirst (allTopicsOf ss)).length ≤ 5 →
          ∀ topic ∈ allTopicsOf ss, 2 ≤ (allTopicsOf ss).count topic →
            (topic, (allTopicsOf ss).count topic, ss.length) ∈ pats) := by
  rcases analyze_fold_mem rs key_analysis_types [] t pats h with h2 | h2
  · simp [lookupA] at h2
  · obtain ⟨hts, ss, hss, hlen, hpats⟩ := h2
    subst hpats
    refine ⟨hts, ss, hss, hlen, ?_, ?_, ?_⟩
    · rw [identify_patterns]
      by_cases he : (allTopicsOf ss).isEmpty
      · rw [if_pos he]; simp
      · rw [if_neg he]
        calc (((mostCommon (allTopicsOf ss)).take 5).filterMap _).length
            ≤ ((mostCommon (allTopicsOf ss)).take 5).length := List.length_filterMap_le _ _
          _ ≤ 5 := by rw [List.length_take]; exact Nat.min_le_left _ _
    · exact fun p hp => identify_patterns_sound ss p hp
    · exact fun hsmall topic hmem hcount =>
        identify_patterns_complete ss hsmall topic hmem hcount

/-- Witness for the amended C7 on a concrete methodology aspect with two
hits. -/
theorem analyze_cross_paper_patterns_spec_witness :
    ("methodology" : String) ∈ key_analysis_types ∧
      ∃ ss, lookupA [("methodology",
          [PaperSummary.mk "p1" "" ["a", "b"], PaperSummary.mk "p2" "" ["a"]])]
          "methodology" = some ss ∧ 2 ≤ ss.length ∧
        (identify_patterns ss).length ≤ 5 ∧
        (∀ p ∈ identify_patterns ss,
          p.2.2 = ss.length ∧ p.2.1 = (allTopicsOf ss).count p.1 ∧ 2 ≤ p.2.1) ∧
        ((dedupFirst (allTopicsOf ss)).length ≤ 5 →
          ∀ topic ∈ allTopicsOf ss, 2 ≤ (allTopicsOf ss).count topic →
            (topic, (allTopicsOf ss).count topic, ss.length) ∈ identify_patterns ss) := by
  have h := analyze_cross_paper_patterns_spec
    [("methodology", [PaperSummary.mk "p1" "" ["a", "b"], PaperSummary.mk "p2" "" ["a"]])]
    "methodology"
    (identify_patterns [PaperSummary.mk "p1" "" ["a", "b"], PaperSummary.mk "p2" "" ["a"]])
    (by decide)
  obtain ⟨h1, ss, hss, hlen, h4, h5, h6⟩ := h
  have hss2 : [PaperSummary.mk "p1" "" ["a", "b"], PaperSummary.mk "p2" "" ["a"]] = ss := by
    have := hss
    simp [lookupA] at this
    exact this
  subst hss2
  exact ⟨h1, _, hss, hlen, h4, h5, h6⟩

/-- C7 counterexample: two methodology hits where topic "a" occurs twice in
the first hit only and topics "b1"–"b5" occur once in each hit.  Every
topic has total count 2, so the claim requires entries for exactly
"b1"–"b5" (each in 2 hits) and none for "a" (it appears in only 1 hit).
The code instead takes the 5 most frequent topics in first-occurrence
order — "a", "b1"–"b4" — emitting "a" (multiplicity counting) and dropping
"b5" (the `most_common(5)` cap). -/
theorem analyze_cross_paper_patterns_counterexample :
    analyze_cross_paper_patterns
        [("methodology",
          [PaperSummary.mk "p1" "" ["a", "a", "b1", "b2", "b3", "b4", "b5"],
           PaperSummary.mk "p2" "" ["b1", "b2", "b3", "b4", "b5"]])]
      = [("methodology",
          [("a", 2, 2), ("b1", 2, 2), ("b2", 2, 2), ("b3", 2, 2), ("b4", 2, 2)])] ∧
      (("a" ∈ (["a", "a", "b1", "b2", "b3", "b4", "b5"] : List String)) ∧
        "a" ∉ (["b1", "b2", "b3", "b4", "b5"] : List String)) ∧
      (("b5" ∈ (["a", "a", "b1", "b2", "b3", "b4", "b5"] : List String)) ∧
        "b5" ∈ (["b1", "b2", "b3", "b4", "b5"] : List String)) := by
  refine ⟨by decide, by decide, by decide⟩

/-! ## Sentence-aware chunking (`split_text`, C8)

`PaperIngestor.split_text` splits the text into sentences (via NLTK or a
regex fallback; the sentence splitter is I/O-adjacent and the claim is
about the walk over sentences, so the embedding takes the stripped,
non-empty sentence list as input).  The walk: at position `i`, build an
overlap by prepending preceding sentences while
`len(sentences[prev]) + len(overlap) <= overlap_size` (each prepended as
`sentence + ' ' + overlap`), set `chunk = overlap + sentences[i]`, then
append forward sentences while `len(chunk) + len(next) <= chunk_size`
(each as `chunk + ' ' + next`), emit the chunk, and restart at the first
sentence not appended.  Sentences and chunks are character lists (Python
`len` = `List.length`).  `splitGo` carries, as ghost instrumentation, the
index triple `(p, i, j)` of each chunk — overlap start, anchor, and the
index the walk restarts at; `split_text` is its chunk projection. -/

/-- `' '.join`-style rendering: sentences separated by single spaces. -/
def joinSp : List (List Char) → List Char
  | [] => []
  | s :: rest => if rest.isEmpty then s else s ++ [' '] ++ joinSp rest

/-- Rendering with a trailing space after every sentence (the shape the
overlap accumulator has in the Python loop). -/
def trailJoin : List (List Char) → List Char
  | [] => []
  | s :: rest => s ++ [' '] ++ trailJoin rest

/-- The backward overlap loop of `split_text`.  The first argument is the
number of sentences still before the cursor (`p` encodes Python's
`prev = p - 1`); returns the index where the overlap starts and the
accumulated overlap string. -/
def overlapGo (ss : List (List Char)) (ovSize : Nat) : Nat → List Char → Nat × List Char
  | 0, ov => (0, ov)
  | p + 1, ov =>
    if (ss.getD p []).length + ov.length ≤ ovSize then
      overlapGo ss ovSize p (ss.getD p [] ++ [' '] ++ ov)
    else (p + 1, ov)

/-- The forward loop of `split_text`: append sentences while the chunk
stays within `chunk_size`; returns the final chunk and `next_idx`. -/
def forwardGo (ss : List (List Char)) (chunkSize : Nat) :
    Nat → List Char → List Char × Nat
  | j, chunk =>
    if h : j < ss.length then
      if chunk.length + (ss.getD j []).length ≤ chunkSize then
        forwardGo ss chunkSize (j + 1) (chunk ++ [' '] ++ ss.getD j [])
      else (chunk, j)
    else (chunk, j)
termination_by j _ => ss.length - j

theorem forwardGo_ge (ss : List (List Char)) (chunkSize : Nat) :
    ∀ j chunk, j ≤ (forwardGo ss chunkSize j chunk).2 := by
  have main : ∀ k j chunk, ss.length - j ≤ k → j ≤ (forwardGo ss chunkSize j chunk).2 := by
    intro k
    induction k with
    | zero =>
      intro j chunk hk
      rw [forwardGo, dif_neg (by omega)]
    | succ k ih =>
      intro j chunk hk
      rw [forwardGo]
      by_cases h : j < ss.length
      · rw [dif_pos h]
        by_cases h2 : chunk.length + (ss.getD j []).length ≤ chunkSize
        · rw [if_pos h2]
          have := ih (j + 1) (chunk ++ [' '] ++ ss.getD j []) (by omega)
          omega
        · rw [if_neg h2]
      · rw [dif_neg h]
  intro j chunk
  exact main (ss.length - j) j chunk le_rfl

/-- `chunk = overlap + sentences[i] if overlap else sentences[i]`. -/
def chunk0At (ss : List (List Char)) (ovSize i : Nat) : List Char :=
  if (overlapGo ss ovSize i []).2 ≠ [] then (overlapGo ss ovSize i []).2 ++ ss.getD i []
  else ss.getD i []

/-- The outer `while i < len(sentences)` loop of `split_text`, with the
chunk ranges as ghost output: each emitted element is
`((p, i, next_idx), chunk)`. -/
def splitGo (ss : List (List Char)) (chunkSize ovSize : Nat) (i : Nat) :
    List ((Nat × Nat × Nat) × List Char) :=
  if _h : i < ss.length then
    (((overlapGo ss ovSize i []).1, i,
      (forwardGo ss chunkSize (i + 1) (chunk0At ss ovSize i)).2),
     (forwardGo ss chunkSize (i + 1) (chunk0At ss ovSize i)).1) ::
    splitGo ss chunkSize ovSize (forwardGo ss chunkSize (i + 1) (chunk0At ss ovSize i)).2
  else []
termination_by ss.length - i
decreasing_by
  have h1 : i + 1 ≤ (forwardGo ss chunkSize (i + 1) (chunk0At ss ovSize i)).2 :=
    forwardGo_ge ss chunkSize (i + 1) (chunk0At ss ovSize i)
  omega

/-- Model of `split_text` (from the stripped sentence list on): the emitted
chunk list. -/
def split_text (ss : List (List Char)) (chunkSize ovSize : Nat) : List (List Char) :=
  (splitGo ss chunkSize ovSize 0).map Prod.snd

/-- The walk property: consecutive chunk ranges tile the sentence list —
each anchor is where the previous chunk's forward walk stopped, and the
final walk stops at the end. -/
def chainFrom (ss : List (List Char)) : List ((Nat × Nat × Nat) × List Char) → Nat → Prop
  | [], i => i = ss.length
  | e :: rest, i => e.1.2.1 = i ∧ chainFrom ss rest e.1.2.2

theorem trailJoin_append (l1 l2 : List (List Char)) :
    trailJoin (l1 ++ l2) = trailJoin l1 ++ trailJoin l2 := by
  induction l1 with
  | nil => simp [trailJoin]
  | cons s rest ih => simp [trailJoin, ih]

theorem joinSp_append_singleton (l : List (List Char)) (x : List Char) :
    joinSp (l ++ [x]) = trailJoin l ++ x := by
  induction l with
  | nil => simp [joinSp, trailJoin]
  | cons s rest ih =>
    rw [List.cons_append, joinSp]
    have hne : ¬(rest ++ [x]).isEmpty := by simp
    rw [if_neg hne, ih, trailJoin]
    simp [List.append_assoc]

theorem trailJoin_length (l : List (List Char)) (h : l ≠ []) :
    (trailJoin l).length = (joinSp l).length + 1 := by
  induction l with
  | nil => exact absurd rfl h
  | cons s rest ih =>
    rw [trailJoin, joinSp]
    by_cases h2 : rest.isEmpty
    · have : rest = [] := List.isEmpty_iff.mp h2
      subst this
      simp [trailJoin]
    · rw [if_neg h2]
      have := ih (by simpa [List.isEmpty_iff] using h2)
      simp only [List.length_append, List.length_cons, List.length_nil]
      omega

theorem trailJoin_ne_nil (s : List Char) (rest : List (List Char)) :
    trailJoin (s :: rest) ≠ [] := by
  rw [trailJoin]
  simp

theorem trailJoin_eq_joinSp (l : List (List Char)) (h : l ≠ []) :
    trailJoin l = joinSp l ++ [' '] := by
  induction l with
  | nil => exact absurd rfl h
  | cons s rest ih =>
    rw [trailJoin, joinSp]
    by_cases h2 : rest.isEmpty
    · have : rest = [] := List.isEmpty_iff.mp h2
      subst this
      simp [trailJoin]
    · rw [if_neg h2, ih (by simpa [List.isEmpty_iff] using h2)]
      simp [List.append_assoc]

theorem take_drop_succ (ss : List (List Char)) (q p : Nat) (hq : q ≤ p)
    (hp : p < ss.length) :
    (ss.take (p + 1)).drop q = (ss.take p).drop q ++ [ss.getD p []] := by
  rw [List.take_succ, List.getElem?_eq_getElem hp]
  rw [List.drop_append_of_le_length (by rw [List.length_take]; omega)]
  congr 1
  rw [List.getD_eq_getElem?_getD, List.getElem?_eq_getElem hp]
  rfl

theorem length_take_drop (ss : List (List Char)) (q p : Nat) (hp : p ≤ ss.length) :
    ((ss.take p).drop q).length = p - q := by
  rw [List.length_drop, List.length_take]
  omega

theorem getD_mem_take_drop (ss : List (List Char)) (q m j : Nat)
    (h1 : q ≤ m) (h2 : m < j) (h3 : j ≤ ss.length) :
    ss.getD m [] ∈ (ss.take j).drop q := by
  have hm : m < ss.length := by omega
  have hlen : m - q < ((ss.take j).drop q).length := by
    rw [length_take_drop ss q j h3]
    omega
  have hval : ((ss.take j).drop q).get ⟨m - q, hlen⟩ = ss.getD m [] := by
    show ((ss.take j).drop q)[m - q] = ss.getD m []
    rw [List.getElem_drop, List.getElem_take]
    · rw [List.getD_eq_getElem?_getD, List.getElem?_eq_getElem hm]
      congr 1
      omega
  rw [← hval]
  exact List.get_mem _ _ hlen

theorem overlapGo_spec (ss : List (List Char)) (ovSize : Nat) :
    ∀ p acc, p ≤ ss.length →
      (overlapGo ss ovSize p acc).1 ≤ p ∧
        (overlapGo ss ovSize p acc).2
          = trailJoin ((ss.take p).drop (overlapGo ss ovSize p acc).1) ++ acc ∧
        ((overlapGo ss ovSize p acc).1 < p →
          (overlapGo ss ovSize p acc).2.length ≤ ovSize + 1) := by
  intro p
  induction p with
  | zero =>
    intro acc _
    refine ⟨le_rfl, ?_, by omega⟩
    simp [overlapGo, trailJoin]
  | succ p ih =>
    intro acc hp
    rw [overlapGo]
    by_cases hfit : (ss.getD p []).length + acc.length ≤ ovSize
    · rw [if_pos hfit]
      have hp2 : p ≤ ss.length := by omega
      obtain ⟨ih1, ih2, ih3⟩ := ih (ss.getD p [] ++ [' '] ++ acc) hp2
      refine ⟨by omega, ?_, ?_⟩
      · rw [ih2,
            take_drop_succ ss (overlapGo ss ovSize p (ss.getD p [] ++ [' '] ++ acc)).1 p ih1
              (by omega),
            trailJoin_append]
        simp [trailJoin, List.append_assoc]
      · intro _
        rcases Nat.lt_or_ge (overlapGo ss ovSize p (ss.getD p [] ++ [' '] ++ acc)).1 p
          with hlt2 | hge
        · exact ih3 hlt2
        · have heq : (overlapGo ss ovSize p (ss.getD p [] ++ [' '] ++ acc)).1 = p :=
            le_antisymm ih1 hge
        -- no overlap was added inside the recursive call: the accumulator
        -- is returned as is, and the fit check bounds its length
          rw [ih2, heq]
          have hnil : (ss.take p).drop p = [] := by
            apply List.eq_nil_of_length_eq_zero
            rw [length_take_drop ss p p hp2]
            omega
          rw [hnil]
          simp only [trailJoin, List.nil_append, List.length_append, List.length_cons,
            List.length_nil]
          omega
    · rw [if_neg hfit]
      refine ⟨le_rfl, ?_, by omega⟩
      have hnil : (ss.take (p + 1)).drop (p + 1) = [] := by
        apply List.eq_nil_of_length_eq_zero
        rw [length_take_drop ss (p + 1) (p + 1) hp]
        omega
      rw [hnil]
      simp [trailJoin]

theorem forwardGo_spec (ss : List (List Char)) (chunkSize : Nat) :
    ∀ k j chunk p, ss.length - j ≤ k → p < j → j ≤ ss.length →
      chunk = joinSp ((ss.take j).drop p) →
      (forwardGo ss chunkSize j chunk).2 ≤ ss.length ∧
        (forwardGo ss chunkSize j chunk).1
          = joinSp ((ss.take (forwardGo ss chunkSize j chunk).2).drop p) ∧
        (∀ m, j ≤ m → m < (forwardGo ss chunkSize j chunk).2 →
          (joinSp ((ss.take m).drop p)).length + (ss.getD m []).length ≤ chunkSize) ∧
        ((forwardGo ss chunkSize j chunk).2 = ss.length ∨
          chunkSize < (joinSp ((ss.take (forwardGo ss chunkSize j chunk).2).drop p)).length
            + (ss.getD (forwardGo ss chunkSize j chunk).2 []).length) := by
  intro k
  induction k with
  | zero =>
    intro j chunk p hk hpj hj hchunk
    have hje : j = ss.length := by omega
    rw [forwardGo, dif_neg (by omega)]
    exact ⟨hj, hchunk, fun m h1 h2 => by simp at h2; omega, Or.inl hje⟩
  | succ k ih =>
    intro j chunk p hk hpj hj hchunk
    rw [forwardGo]
    by_cases h : j < ss.length
    · rw [dif_pos h]
      by_cases hfit : chunk.length + (ss.getD j []).length ≤ chunkSize
      · rw [if_pos hfit]
        have hne : (ss.take j).drop p ≠ [] := by
          intro hnil
          have := length_take_drop ss p j hj
          rw [hnil] at this
          simp at this
          omega
        have hchunk2 : chunk ++ [' '] ++ ss.getD j []
            = joinSp ((ss.take (j + 1)).drop p) := by
          rw [take_drop_succ ss p j (by omega) h, joinSp_append_singleton,
              trailJoin_eq_joinSp _ hne, hchunk]
        obtain ⟨r1, r2, r3, r4⟩ := ih (j + 1) (chunk ++ [' '] ++ ss.getD j []) p
          (by omega) (by omega) (by omega) hchunk2
        refine ⟨r1, r2, ?_, r4⟩
        intro m hm1 hm2
        rcases Nat.eq_or_lt_of_le hm1 with he | hlt
        · rw [← he, ← hchunk]
          exact hfit
        · exact r3 m hlt hm2
      · rw [if_neg hfit]
        refine ⟨hj, hchunk, fun m h1 h2 => by simp at h2; omega, Or.inr ?_⟩
        show chunkSize < (joinSp ((ss.take j).drop p)).length + (ss.getD j []).length
        rw [← hchunk]
        omega
    · rw [dif_neg h]
      have hje : j = ss.length := by omega
      exact ⟨hj, hchunk, fun m h1 h2 => by simp at h2; omega, Or.inl hje⟩

/-- The per-chunk property: the chunk with range `(p, i, j)` renders the
consecutive sentences `p … j-1`, the overlap part respects `overlap_size`,
the forward part respects `chunk_size`, and the walk stopped at `j` because
the next sentence does not fit (or the text ended). -/
def chunkOk (ss : List (List Char)) (chunkSize ovSize : Nat)
    (e : (Nat × Nat × Nat) × List Char) : Prop :=
  e.1.1 ≤ e.1.2.1 ∧ e.1.2.1 < e.1.2.2 ∧ e.1.2.2 ≤ ss.length ∧
    e.2 = joinSp ((ss.take e.1.2.2).drop e.1.1) ∧
    (e.1.1 < e.1.2.1 → (joinSp ((ss.take e.1.2.1).drop e.1.1)).length ≤ ovSize) ∧
    (∀ m, e.1.2.1 < m → m < e.1.2.2 →
      (joinSp ((ss.take m).drop e.1.1)).length + (ss.getD m []).length ≤ chunkSize) ∧
    (e.1.2.2 = ss.length ∨
      chunkSize < (joinSp ((ss.take e.1.2.2).drop e.1.1)).length
        + (ss.getD e.1.2.2 []).length)

theorem splitGo_spec (ss : List (List Char)) (chunkSize ovSize : Nat) :
    ∀ k i, ss.length - i ≤ k → i ≤ ss.length →
      (∀ e ∈ splitGo ss chunkSize ovSize i, chunkOk ss chunkSize ovSize e) ∧
        chainFrom ss (splitGo ss chunkSize ovSize i) i ∧
        (∀ m, i ≤ m → m < ss.length →
          ∃ e ∈ splitGo ss chunkSize ovSize i, e.1.1 ≤ m ∧ m < e.1.2.2) := by
  intro k
  induction k with
  | zero =>
    intro i hk hi
    have hie : i = ss.length := by omega
    rw [splitGo, dif_neg (by omega)]
    exact ⟨fun e he => absurd he (List.not_mem_nil e), hie,
      fun m h1 h2 => by omega⟩
  | succ k ih =>
    intro i hk hi
    by_cases h : i < ss.length
    · obtain ⟨o1, o2, o3⟩ := overlapGo_spec ss ovSize i [] (by omega)
      set q := (overlapGo ss ovSize i []).1 with hq
      have hchunk0 : chunk0At ss ovSize i = joinSp ((ss.take (i + 1)).drop q) := by
        rw [chunk0At]
        rw [take_drop_succ ss q i o1 h, joinSp_append_singleton]
        by_cases hov : (overlapGo ss ovSize i []).2 ≠ []
        · rw [if_pos hov, o2]
          simp
        · rw [if_neg hov]
          push_neg at hov
          rw [o2] at hov
          simp only [List.append_nil] at hov
          rw [hov]
          simp
      obtain ⟨f1, f2, f3, f4⟩ := forwardGo_spec ss chunkSize (ss.length - (i + 1))
        (i + 1) (chunk0At ss ovSize i) q le_rfl (by omega) (by omega) hchunk0
      set j2 := (forwardGo ss chunkSize (i + 1) (chunk0At ss ovSize i)).2 with hj2
      have hij : i + 1 ≤ j2 := forwardGo_ge ss chunkSize (i + 1) (chunk0At ss ovSize i)
      obtain ⟨r1, r2, r3⟩ := ih j2 (by omega) (by omega)
      have hsplit : splitGo ss chunkSize ovSize i
          = ((q, i, j2), (forwardGo ss chunkSize (i + 1) (chunk0At ss ovSize i)).1) ::
            splitGo ss chunkSize ovSize j2 := by
        rw [splitGo, dif_pos h]
      have hheadok : chunkOk ss chunkSize ovSize
          ((q, i, j2), (forwardGo ss chunkSize (i + 1) (chunk0At ss ovSize i)).1) := by
        dsimp only [chunkOk]
        refine ⟨o1, by omega, f1, f2, ?_, ?_, f4⟩
        · intro hqi
          have hne : (ss.take i).drop q ≠ [] := by
            intro hnil
            have := length_take_drop ss q i (by omega)
            rw [hnil] at this
            simp at this
            omega
          have hlen := trailJoin_length ((ss.take i).drop q) hne
          have ho3 := o3 hqi
          rw [o2] at ho3
          simp only [List.append_nil] at ho3
          omega
        · intro m hm1 hm2
          exact f3 m (by omega) hm2
      refine ⟨?_, ?_, ?_⟩
      · intro e he
        rw [hsplit] at he
        rcases List.mem_cons.mp he with he | he
        · rw [he]; exact hheadok
        · exact r1 e he
      · rw [hsplit]
        exact ⟨rfl, r2⟩
      · intro m hm1 hm2
        by_cases hmj : m < j2
        · refine ⟨((q, i, j2), (forwardGo ss chunkSize (i + 1) (chunk0At ss ovSize i)).1),
            ?_, by simpa using Nat.le_trans o1 hm1, hmj⟩
          rw [hsplit]
          exact List.mem_cons_self _ _
        · obtain ⟨e, he, hc⟩ := r3 m (by omega) hm2
          refine ⟨e, ?_, hc⟩
          rw [hsplit]
          exact List.mem_cons_of_mem _ he
    · have hie : i = ss.length := by omega
      rw [splitGo, dif_neg (by omega)]
      exact ⟨fun e he => absurd he (List.not_mem_nil e), hie,
        fun m h1 h2 => by omega⟩

/-- C8: every chunk emitted by `split_text` renders whole, consecutive
sentences `p … j-1` joined by single spaces, where `p ≤ i < j` for the
anchor `i`: the overlap prefix `p … i-1` (when present) has joined length
at most `overlap_size`, each forward sentence was appended only while the
running chunk stayed within `chunk_size`, and the walk advanced exactly to
the first sentence not appended (`j`, which is where the next chunk's
anchor sits — the ranges tile the sentence list).  Consequently every
sentence of the text occurs in at least one chunk. -/
theorem split_text_spec (ss : List (List Char)) (chunkSize ovSize : Nat) :
    split_text ss chunkSize ovSize = (splitGo ss chunkSize ovSize 0).map Prod.snd ∧
      (∀ e ∈ splitGo ss chunkSize ovSize 0, chunkOk ss chunkSize ovSize e) ∧
      chainFrom ss (splitGo ss chunkSize ovSize 0) 0 ∧
      (∀ m, m < ss.length →
        ∃ e ∈ splitGo ss chunkSize ovSize 0,
          e.1.1 ≤ m ∧ m < e.1.2.2 ∧ ss.getD m [] ∈ (ss.take e.1.2.2).drop e.1.1) := by
  obtain ⟨h1, h2, h3⟩ := splitGo_spec ss chunkSize ovSize ss.length 0 (by omega) (by omega)
  refine ⟨rfl, h1, h2, ?_⟩
  intro m hm
  obtain ⟨e, he, hc1, hc2⟩ := h3 m (by omega) hm
  have hok := h1 e he
  exact ⟨e, he, hc1, hc2, getD_mem_take_drop ss e.1.1 m e.1.2.2 hc1 hc2 hok.2.2.1⟩

/-- Witness for C8 on three concrete sentences with `chunk_size = 7`,
`overlap_size = 2`: the first sentence of the text occurs in an emitted
chunk whose range satisfies the walk invariants. -/
theorem split_text_spec_witness :
    ∃ e ∈ splitGo [['a', 'b'], ['c'], ['d', 'e', 'f']] 7 2 0,
      e.1.1 ≤ 0 ∧ 0 < e.1.2.2 ∧
        ([['a', 'b'], ['c'], ['d', 'e', 'f']].getD 0 []
          ∈ ([['a', 'b'], ['c'], ['d', 'e', 'f']].take e.1.2.2).drop e.1.1) :=
  (split_text_spec [['a', 'b'], ['c'], ['d', 'e', 'f']] 7 2).2.2.2 0 (by decide)

/-! ## Merge-suggestion parsing (`parse_merge_suggestions`, C5)

`TopicManager.parse_merge_suggestions` returns `[]` when the response
contains 无需合并, then runs six `re.findall` passes over the whole
response, in order:

1. `更新并合并\s*(\d+)\s*[-–]>\s*(\d+)` — append as `update_merge` unless
   the exact triple is already present;
2. `(?<!更新并)合并\s*(\d+)\s*[-–]>\s*(\d+)` — append as `merge` unless the
   `(source, target)` pair is present;
3. `\d+\.?\s*合并\s*(\d+)\s*[-–]>\s*(\d+)` — kind from whether 更新并
   occurs in `response[max(0, find(src)-10) : min(len, find(tgt)+10)]`
   (`str.find` of the bare digit strings!);
4. `合并\s*(\d+)\s*[-–]>\s*(\d+)[,，]` — `merge`;
5. `(\d+)\s*[-–]>\s*(\d+)` — kind from whether
   `更新[^。]*{src}\s*[-–]>\s*{tgt}` matches anywhere;
6. `\d+\.合并(\d+)[-–]>(\d+)` — `merge`;
passes 3–6 also append only when the pair is new.

Each regex is embedded as a hand-rolled matcher over character lists, with
`re.findall`'s leftmost, non-overlapping semantics (scan forward, emit the
match, resume after it).  `\d`/`\s` are modelled as `Char.isDigit` /
`Char.isWhitespace` (Python additionally accepts other Unicode digit and
whitespace characters, irrelevant for the ids and separators at issue).
The only backtracking these patterns can require is the optional dot in
pattern 3 (tried with the dot first, then without); shortening a greedy
`\d+` can never help, because every continuation after a digit group
starts with `\s`, `[-–]`, 合 or `\.`, none of which matches a digit. -/

/-- Greedy `(\d+)`: the leading digit run and the rest; fails on no digit. -/
def takeDigits (s : List Char) : Option (List Char × List Char) :=
  if (s.takeWhile Char.isDigit).isEmpty then none
  else some (s.takeWhile Char.isDigit, s.dropWhile Char.isDigit)

/-- Greedy `\s*`. -/
def skipWs (s : List Char) : List Char := s.dropWhile Char.isWhitespace

/-- A literal. -/
def matchLit (lit s : List Char) : Option (List Char) :=
  if lit.isPrefixOf s then some (s.drop lit.length) else none

/-- `[-–]>`. -/
def matchArrow : List Char → Option (List Char)
  | c :: '>' :: rest => if c = '-' ∨ c = '–' then some rest else none
  | _ => none

/-- `(\d+)\s*[-–]>\s*(\d+)`. -/
def matchArrowPair (s : List Char) : Option ((List Char × List Char) × List Char) :=
  match takeDigits s with
  | none => none
  | some (g1, r1) =>
    match matchArrow (skipWs r1) with
    | none => none
    | some r3 =>
      match takeDigits (skipWs r3) with
      | none => none
      | some (g2, r5) => some ((g1, g2), r5)

/-- Pattern 1: `更新并合并\s*(\d+)\s*[-–]>\s*(\d+)`. -/
def tryUpdateMergePat (_pre s : List Char) : Option ((List Char × List Char) × List Char) :=
  match matchLit ("更新并合并".data) s with
  | none => none
  | some r => matchArrowPair (skipWs r)

/-- Pattern 2: `(?<!更新并)合并\s*(\d+)\s*[-–]>\s*(\d+)`; `pre` is the
reversed text before the match position, so the lookbehind reads its first
three characters. -/
def tryMergePat (pre s : List Char) : Option ((List Char × List Char) × List Char) :=
  match matchLit ("合并".data) s with
  | none => none
  | some r =>
    if ['并', '新', '更'].isPrefixOf pre then none
    else matchArrowPair (skipWs r)

/-- The `合并\s*(\d+)\s*[-–]>\s*(\d+)` tail shared by pattern 3. -/
def mergeTailAt (s : List Char) : Option ((List Char × List Char) × List Char) :=
  match matchLit ("合并".data) (skipWs s) with
  | none => none
  | some r2 => matchArrowPair (skipWs r2)

/-- Pattern 3: `\d+\.?\s*合并\s*(\d+)\s*[-–]>\s*(\d+)` (dot tried greedily,
then dropped). -/
def tryNumberedPat (_pre s : List Char) : Option ((List Char × List Char) × List Char) :=
  match takeDigits s with
  | none => none
  | some (_, r1) =>
    match r1 with
    | '.' :: r1b =>
      match mergeTailAt r1b with
      | some res => some res
      | none => mergeTailAt r1
    | _ => mergeTailAt r1

/-- Pattern 4: `合并\s*(\d+)\s*[-–]>\s*(\d+)[,，]`. -/
def tryCommaPat (_pre s : List Char) : Option ((List Char × List Char) × List Char) :=
  match matchLit ("合并".data) s with
  | none => none
  | some r =>
    match matchArrowPair (skipWs r) with
    | none => none
    | some (gs, r5) =>
      match r5 with
      | c :: r6 => if c = ',' ∨ c = '，' then some (gs, r6) else none
      | [] => none

/-- Pattern 5: `(\d+)\s*[-–]>\s*(\d+)`. -/
def tryArrowPat (_pre s : List Char) : Option ((List Char × List Char) × List Char) :=
  matchArrowPair s

/-- Pattern 6: `\d+\.合并(\d+)[-–]>(\d+)` (no whitespace allowed). -/
def tryCompactPat (_pre s : List Char) : Option ((List Char × List Char) × List Char) :=
  match takeDigits s with
  | none => none
  | some (_, r1) =>
    match r1 with
    | '.' :: r2 =>
      match matchLit ("合并".data) r2 with
      | none => none
      | some r3 =>
        match takeDigits r3 with
        | none => none
        | some (g1, r4) =>
          match matchArrow r4 with
          | none => none
          | some r5 =>
            match takeDigits r5 with
            | none => none
            | some (g2, r6) => some ((g1, g2), r6)
    | _ => none

/-- `re.findall` driver: scan left to right, at each position try the
matcher (which also receives the reversed preceding text, for the
lookbehind) and on success emit the groups and resume after the match.
Every pattern above consumes at least one character, so fuel
`length + 1` suffices. -/
def findAllGo (m : List Char → List Char → Option ((List Char × List Char) × List Char)) :
    Nat → List Char → List Char → List (List Char × List Char)
  | 0, _, _ => []
  | fuel + 1, pre, s =>
    match m pre s with
    | some (g, rest) =>
      g :: findAllGo m fuel ((s.take (s.length - rest.length)).reverse ++ pre) rest
    | none =>
      match s with
      | [] => []
      | c :: s2 => findAllGo m fuel (c :: pre) s2

/-- `re.findall(pattern, s)`. -/
def findAll (m : List Char → List Char → Option ((List Char × List Char) × List Char))
    (s : List Char) : List (List Char × List Char) :=
  findAllGo m (s.length + 1) [] s

/-- First index of a sublist (Python `str.find` core). -/
def findSubGo (needle : List Char) : List Char → Nat → Option Nat
  | [], idx => if needle.isPrefixOf [] then some idx else none
  | c :: t, idx =>
    if needle.isPrefixOf (c :: t) then some idx else findSubGo needle t (idx + 1)

/-- Python `hay.find(needle)` (−1 when absent). -/
def pyFind (hay needle : List Char) : Int :=
  match findSubGo needle hay 0 with
  | some i => (i : Int)
  | none => -1

/-- Python `needle in hay`. -/
def containsSub (hay needle : List Char) : Bool :=
  (findSubGo needle hay 0).isSome

/-- Python `s[a:b]` for the non-negative bounds computed in pattern 3. -/
def pySlice (s : List Char) (a b : Int) : List Char :=
  (s.take b.toNat).drop a.toNat

/-- Pattern 3's context check: does 更新并 occur within
`response[max(0, find(src)-10) : min(len, find(tgt)+10)]`? -/
def numberedIsUpdate (resp src tgt : List Char) : Bool :=
  containsSub
    (pySlice resp (max 0 (pyFind resp src - 10))
      (min (resp.length : Int) (pyFind resp tgt + 10)))
    ("更新并".data)

/-- `{src}\s*[-–]>\s*{tgt}` as a prefix of `s`. -/
def arrowTailAt (src tgt s : List Char) : Bool :=
  match matchLit src s with
  | none => false
  | some r1 =>
    match matchArrow (skipWs r1) with
    | none => false
    | some r3 => tgt.isPrefixOf (skipWs r3)

/-- Walk a `[^。]*` segment: does `{src}\s*[-–]>\s*{tgt}` start at some
position reachable without crossing 。? -/
def scanNoStop (src tgt : List Char) : List Char → Bool
  | [] => false
  | c :: t =>
    if arrowTailAt src tgt (c :: t) then true
    else if c = '。' then false
    else scanNoStop src tgt t

/-- Pattern 5's context check:
`re.search(更新[^。]*{src}\s*[-–]>\s*{tgt}, response)`. -/
def updateCtxGo (src tgt : List Char) : List Char → Bool
  | [] => false
  | c :: t =>
    if (['更', '新'].isPrefixOf (c :: t) && scanNoStop src tgt ((c :: t).drop 2)) then true
    else updateCtxGo src tgt t

/-- Pattern 1's append: skip only when the exact triple is present. -/
def addIfNewTriple (acc : List (String × String × String)) (g : List Char × List Char) :
    List (String × String × String) :=
  if acc.contains (String.mk g.1, String.mk g.2, ("update_merge" : String)) then acc
  else acc ++ [(String.mk g.1, String.mk g.2, "update_merge")]

/-- Patterns 2–6's append: skip when the `(source, target)` pair is
present with any kind. -/
def addIfNewPair (kind : String) (acc : List (String × String × String))
    (g : List Char × List Char) : List (String × String × String) :=
  if acc.any (fun e => e.1 == String.mk g.1 && e.2.1 == String.mk g.2) then acc
  else acc ++ [(String.mk g.1, String.mk g.2, kind)]

/-- Model of `parse_merge_suggestions`: the `(source, target, kind)` list. -/
def parse_merge_suggestions (response : String) : List (String × String × String) :=
  if containsSub response.data ("无需合并".data) then []
  else
    let cs := response.data
    let a1 := (findAll tryUpdateMergePat cs).foldl addIfNewTriple []
    let a2 := (findAll tryMergePat cs).foldl (addIfNewPair "merge") a1
    let a3 := (findAll tryNumberedPat cs).foldl
      (fun acc g =>
        addIfNewPair (if numberedIsUpdate cs g.1 g.2 then "update_merge" else "merge") acc g)
      a2
    let a4 := (findAll tryCommaPat cs).foldl (addIfNewPair "merge") a3
    let a5 := (findAll tryArrowPat cs).foldl
      (fun acc g =>
        addIfNewPair (if updateCtxGo g.1 g.2 cs then "update_merge" else "merge") acc g)
      a4
    (findAll tryCompactPat cs).foldl (addIfNewPair "merge") a5

/-- The `(source, target)` pairs of a suggestion list. -/
def pairsOf (l : List (String × String × String)) : List (String × String) :=
  l.map (fun e => (e.1, e.2.1))

theorem addIfNewPair_nodup (kind : String) (acc : List (String × String × String))
    (g : List Char × List Char) (h : (pairsOf acc).Nodup) :
    (pairsOf (addIfNewPair kind acc g)).Nodup := by
  rw [addIfNewPair]
  by_cases hc : acc.any (fun e => e.1 == String.mk g.1 && e.2.1 == String.mk g.2) = true
  · rw [if_pos hc]; exact h
  · rw [if_neg hc]
    simp only [pairsOf, List.map_append, List.map_cons, List.map_nil]
    rw [List.nodup_append]
    refine ⟨h, List.nodup_singleton _, ?_⟩
    intro a ha hb
    simp only [List.mem_singleton] at hb
    rcases List.mem_map.mp ha with ⟨e, he, hae⟩
    apply hc
    rw [List.any_eq_true]
    refine ⟨e, he, ?_⟩
    rw [hb] at hae
    have h1 : e.1 = String.mk g.1 := congrArg Prod.fst hae
    have h2 : e.2.1 = String.mk g.2 := congrArg Prod.snd hae
    simp [h1, h2]

theorem addIfNewTriple_inv (acc : List (String × String × String))
    (g : List Char × List Char) (h1 : (pairsOf acc).Nodup)
    (h2 : ∀ e ∈ acc, e.2.2 = "update_merge") :
    (pairsOf (addIfNewTriple acc g)).Nodup ∧
      ∀ e ∈ addIfNewTriple acc g, e.2.2 = "update_merge" := by
  rw [addIfNewTriple]
  by_cases hc : acc.contains (String.mk g.1, String.mk g.2, ("update_merge" : String)) = true
  · rw [if_pos hc]; exact ⟨h1, h2⟩
  · rw [if_neg hc]
    refine ⟨?_, ?_⟩
    · simp only [pairsOf, List.map_append, List.map_cons, List.map_nil]
      rw [List.nodup_append]
      refine ⟨h1, List.nodup_singleton _, ?_⟩
      intro a ha hb
      simp only [List.mem_singleton] at hb
      rcases List.mem_map.mp ha with ⟨e, he, hae⟩
      apply hc
      have hk := h2 e he
      have h1e : e.1 = String.mk g.1 := by
        rw [hb] at hae
        exact congrArg Prod.fst hae
      have h2e : e.2.1 = String.mk g.2 := by
        rw [hb] at hae
        exact congrArg Prod.snd hae
      have he2 : e = (String.mk g.1, String.mk g.2, ("update_merge" : String)) := by
        obtain ⟨e1, e2, e3⟩ := e
        simp only at h1e h2e hk
        rw [h1e, h2e, hk]
      rw [← he2]
      exact List.elem_iff.mpr he
    · intro e he
      rcases List.mem_append.mp he with he | he
      · exact h2 e he
      · simp only [List.mem_singleton] at he
        rw [he]

theorem foldl_addIfNewPair_nodup (f : List Char × List Char → String)
    (gs : List (List Char × List Char)) :
    ∀ acc, (pairsOf acc).Nodup →
      (pairsOf (gs.foldl (fun acc g => addIfNewPair (f g) acc g) acc)).Nodup := by
  induction gs with
  | nil => intro acc h; exact h
  | cons g gs ih =>
    intro acc h
    rw [List.foldl_cons]
    exact ih _ (addIfNewPair_nodup (f g) acc g h)

theorem foldl_addIfNewTriple_inv (gs : List (List Char × List Char)) :
    ∀ acc, (pairsOf acc).Nodup → (∀ e ∈ acc, e.2.2 = "update_merge") →
      (pairsOf (gs.foldl addIfNewTriple acc)).Nodup ∧
        ∀ e ∈ gs.foldl addIfNewTriple acc, e.2.2 = "update_merge" := by
  induction gs with
  | nil => intro acc h1 h2; exact ⟨h1, h2⟩
  | cons g gs ih =>
    intro acc h1 h2
    rw [List.foldl_cons]
    obtain ⟨h3, h4⟩ := addIfNewTriple_inv acc g h1 h2
    exact ih _ h3 h4

/-- C5 as amended: the parsed merge-suggestion list never contains two
suggestions with the same `(source, target)` pair — every appending step is
guarded by a pair (or, in pass 1, triple-on-a-pass-of-uniform-kind)
membership test.  (No `A == B` filtering exists; see the counterexample.) -/
theorem parse_merge_suggestions_nodup_pairs (response : String) :
    (pairsOf (parse_merge_suggestions response)).Nodup := by
  rw [parse_merge_suggestions]
  by_cases h : containsSub response.data ("无需合并".data) = true
  · rw [if_pos h]; simp [pairsOf]
  · rw [if_neg h]
    have h1 := foldl_addIfNewTriple_inv (findAll tryUpdateMergePat response.data) []
      (by simp [pairsOf]) (by simp)
    have h2 := foldl_addIfNewPair_nodup (fun _ => "merge")
      (findAll tryMergePat response.data) _ h1.1
    have h3 := foldl_addIfNewPair_nodup
      (fun g => if numberedIsUpdate response.data g.1 g.2 then "update_merge" else "merge")
      (findAll tryNumberedPat response.data) _ h2
    have h4 := foldl_addIfNewPair_nodup (fun _ => "merge")
      (findAll tryCommaPat response.data) _ h3
    have h5 := foldl_addIfNewPair_nodup
      (fun g => if updateCtxGo g.1 g.2 response.data then "update_merge" else "merge")
      (findAll tryArrowPat response.data) _ h4
    exact foldl_addIfNewPair_nodup (fun _ => "merge")
      (findAll tryCompactPat response.data) _ h5

/-- C5 counterexample: the response 合并 3 -> 3 parses to the suggestion
`("3", "3", "merge")` — a suggestion whose source id equals its target id
is not dropped by the parser (no such filter exists in the code). -/
theorem parse_merge_keeps_self_suggestion :
    parse_merge_suggestions "合并 3 -> 3" = [("3", "3", "merge")] ∧
      ("3", "3", "merge") ∈ parse_merge_suggestions "合并 3 -> 3" := by
  refine ⟨by decide, by decide⟩

end Abs2Paper
